import Mathlib

/-!
Verification development for the fish-history shadow-log sync engine
(crates/atuin-client/src/fish_sync.rs and crates/atuin-daemon/src/fish_sync.rs).

Strings are modelled as `List Char`. Every definition below is a direct
translation of the corresponding Rust function; the file state is modelled
explicitly (`Fs`), and the concurrent behaviour of `sync_entry` is modelled
as a small-step relation whose atomic steps are the individual file reads,
the lock-protected contiguous append, and the trimmer's read and write.
-/

namespace FishSync

/-- Strings as character lists (Rust str / String). -/
abbrev Str := List Char

/-- Rust char::is_whitespace (the Unicode White_Space set). -/
def isUniWs (c : Char) : Bool :=
  ['\x09', '\x0a', '\x0b', '\x0c', '\x0d', ' ', '\u0085', '\u00A0',
   '\u1680', '\u2000', '\u2001', '\u2002', '\u2003', '\u2004', '\u2005',
   '\u2006', '\u2007', '\u2008', '\u2009', '\u200A', '\u2028', '\u2029',
   '\u202F', '\u205F', '\u3000'].contains c

/-- Rust str::trim_start: drop leading whitespace. -/
def trimStart : Str → Str
  | [] => []
  | c :: r => if isUniWs c then trimStart r else c :: r

/-- Rust str::trim_end: drop trailing whitespace. -/
def trimEnd : Str → Str
  | [] => []
  | c :: r =>
    let r' := trimEnd r
    if r' = [] ∧ isUniWs c then [] else c :: r'

/-- Rust str::trim: drop whitespace at both ends. -/
def trimBoth (s : Str) : Str := trimEnd (trimStart s)

/-- Split a string at newline characters (all pieces, including a final
empty piece when the string ends with a newline). -/
def splitNl : Str → List Str
  | [] => [[]]
  | c :: rest =>
    if c = '\n' then [] :: splitNl rest
    else
      match splitNl rest with
      | [] => [[c]]
      | l :: ls => (c :: l) :: ls

/-- Drop the trailing empty piece produced by a final newline. -/
def dropLastEmpty (ls : List Str) : List Str :=
  if ls.getLast? = some [] then ls.dropLast else ls

/-- Strip one trailing carriage return from a line (Rust str::lines). -/
def stripCr (l : Str) : Str :=
  if l.getLast? = some '\x0d' then l.dropLast else l

/-- Rust str::lines: split at newlines, no final empty line, lines lose a
trailing carriage return. -/
def linesOf (s : Str) : List Str := (dropLastEmpty (splitNl s)).map stripCr

/-- The decimal digit characters. -/
def digitChar : Nat → Char
  | 0 => '0' | 1 => '1' | 2 => '2' | 3 => '3' | 4 => '4'
  | 5 => '5' | 6 => '6' | 7 => '7' | 8 => '8' | 9 => '9' | _ => '*'

/-- Fuel-driven digit expansion; the fuel never runs out when it exceeds
the number (established below). -/
def natStrGo : Nat → Nat → Str
  | 0, _ => []
  | fuel + 1, n =>
    if n < 10 then [digitChar n] else natStrGo fuel (n / 10) ++ [digitChar (n % 10)]

/-- Decimal rendering of a natural number (Rust Display for unsigned ints). -/
def natStr (n : Nat) : Str := natStrGo (n + 1) n

/-- Decimal rendering of an integer (Rust Display for i64: optional minus
sign followed by digits, no plus sign). -/
def intStr (t : Int) : Str :=
  if t < 0 then '-' :: natStr (-t).toNat else natStr t.toNat

/-- Split an optional leading sign from a numeral (first step of Rust
str::parse for a signed integer). -/
def parseSign : Str → Int × Str
  | [] => (1, [])
  | c :: r =>
    if c = '+' then (1, r)
    else if c = '-' then (-1, r)
    else (1, c :: r)

/-- Value of a digit string. -/
def decimalVal (s : Str) : Nat :=
  s.foldl (fun a c => a * 10 + (c.toNat - 48)) 0

/-- Rust str::parse::<i64>: optional sign, at least one digit, all digits,
and the value must fit in a signed 64-bit integer. -/
def parseI64 (s : Str) : Option Int :=
  let sg := (parseSign s).1
  let ds := (parseSign s).2
  if ds = [] then none
  else if ¬ ds.all Char.isDigit then none
  else
    let v : Int := sg * (decimalVal ds : Nat)
    if -(2 ^ 63) ≤ v ∧ v < 2 ^ 63 then some v else none

/-- Fuel-driven repeated prefix stripping; the fuel never runs out when it
exceeds the string length (established below). -/
def stripAllPreF : Nat → Str → Str → Str
  | 0, _, s => s
  | fuel + 1, p, s =>
    if p ≠ [] ∧ p.isPrefixOf s then stripAllPreF fuel p (s.drop p.length) else s

/-- Repeatedly strip a leading occurrence of a pattern
(Rust str::trim_start_matches). -/
def stripAllPre (p s : Str) : Str := stripAllPreF (s.length + 1) p s

/-- The entry marker "- cmd:" that begins every fish history entry. -/
def marker : Str := ['-', ' ', 'c', 'm', 'd', ':']

/-- The raw timestamp line start "  when:" (two spaces). -/
def whenPre : Str := [' ', ' ', 'w', 'h', 'e', 'n', ':']

/-- The trimmed timestamp field marker "when:". -/
def whenP5 : Str := ['w', 'h', 'e', 'n', ':']

/-- The raw metadata line start "  # atuin-uuid:" (two spaces). -/
def uuidPre : Str :=
  [' ', ' ', '#', ' ', 'a', 't', 'u', 'i', 'n', '-', 'u', 'u', 'i', 'd', ':']

/-- A history record as consumed here: unique identifier, command text,
unix timestamp (History.id, History.command,
History.timestamp.unix_timestamp()). -/
structure SyncRecord where
  id : Str
  cmd : Str
  ts : Int
deriving DecidableEq, Repr

/-- Replace every occurrence of a character by a replacement string
(Rust str::replace with a single-char pattern). -/
def replaceChar (c : Char) (r : Str) (s : Str) : Str :=
  (s.map (fun x => if x = c then r else [x])).flatten

/-- The command escaping of format_fish_entry:
command.replace('\\', "\\\\").replace('\n', "\\n"). -/
def escapeCmd (s : Str) : Str :=
  replaceChar '\n' ['\\', 'n'] (replaceChar '\\' ['\\', '\\'] s)

/-- The part of an encoded entry after the leading marker. -/
def entryBody (r : SyncRecord) : Str :=
  escapeCmd r.cmd ++ ['\n'] ++ whenPre ++ intStr r.ts ++ ['\n'] ++
    uuidPre ++ r.id ++ ['\n']

/-- format_fish_entry: "- cmd:{escaped}\n  when:{ts}\n  # atuin-uuid:{id}\n"
(identical in the client and daemon variants). -/
def encode (r : SyncRecord) : Str := marker ++ entryBody r

/-- The three raw lines of an encoded entry. -/
def entryLines (r : SyncRecord) : List Str :=
  [marker ++ escapeCmd r.cmd, whenPre ++ intStr r.ts, uuidPre ++ r.id]

/-- Concatenation of the encodings of a list of records. -/
def joinEnc (l : List SyncRecord) : Str := (l.map encode).flatten

/-- get_synced_uuids: the identifiers found after every metadata line start
(the Rust code collects them into a set; membership below is membership in
this list). -/
def uuidsOf (content : Str) : List Str :=
  (linesOf content).filterMap
    (fun l => if uuidPre.isPrefixOf l then some (stripAllPre uuidPre l) else none)

/-- One iteration of the scanning loop of entry_exists_in_fish_history:
test the current line (with the following line as timestamp candidate). -/
def entryMatchLine (cmd tsStr : Str) (lcur : Str) (rest : List Str) : Bool :=
  let line := trimBoth lcur
  if marker.isPrefixOf line then
    let entryCmd := if 6 < line.length then trimBoth (line.drop 6) else []
    match rest with
    | [] => false
    | w :: _ =>
      let whenLine := trimBoth w
      if whenP5.isPrefixOf whenLine then
        let entryTs := trimBoth (whenLine.drop 5)
        (decide (entryCmd = cmd) || decide (trimStart (line.drop 6) = cmd)) &&
          decide (entryTs = tsStr)
      else false
  else false

/-- The scanning loop of entry_exists_in_fish_history over the line list. -/
def entryExistsGo (cmd tsStr : Str) : List Str → Bool
  | [] => false
  | l :: rest => entryMatchLine cmd tsStr l rest || entryExistsGo cmd tsStr rest

/-- entry_exists_in_fish_history on a file content (a missing file is the
empty content; both yield false). -/
def entryExists (content : Str) (cmd : Str) (ts : Int) : Bool :=
  entryExistsGo cmd (intStr ts) (linesOf content)

/-- get_last_synced_timestamp: last raw line starting with "  when:",
stripped of that marker and parsed as an i64. -/
def lastTimestamp (content : Str) : Option Int :=
  ((linesOf content).reverse.find? (fun l => whenPre.isPrefixOf l)).bind
    (fun l => parseI64 (stripAllPre whenPre l))

/-- Fuel-driven splitting loop of content.split("- cmd:") (leftmost,
non-overlapping occurrences of the marker); the fuel never runs out when
it exceeds the string length (established below). -/
def splitGoF : Nat → Str → Str → List Str
  | 0, _, acc => [acc.reverse]
  | fuel + 1, s, acc =>
    if marker.isPrefixOf s then
      acc.reverse :: splitGoF fuel (s.drop 6) []
    else
      match s with
      | [] => [acc.reverse]
      | c :: rest => splitGoF fuel rest (c :: acc)

/-- The splitting loop of content.split("- cmd:"). -/
def splitGo (s acc : Str) : List Str := splitGoF (s.length + 1) s acc

/-- content.split("- cmd:") as used by trim_fish_history. -/
def splitMarker (s : Str) : List Str := splitGo s []

/-- The entry bodies of a file in order: content.split("- cmd:").skip(1). -/
def entriesOf (s : Str) : List Str := (splitMarker s).drop 1

/-- The number of entries trim_fish_history sees. -/
def countEntries (s : Str) : Nat := (entriesOf s).length

/-- The rewritten content: the last maxE bodies, each re-prefixed with the
marker. -/
def rebuildLast (maxE : Nat) (s : Str) : Str :=
  (((entriesOf s).drop ((entriesOf s).length - maxE)).map (fun e => marker ++ e)).flatten

/-- trim_fish_history on a file content (identical in both variants):
0 means no limit; within the bound nothing is written; otherwise the file
is rewritten to the last maxE entries. -/
def trimModel (maxE : Nat) (content : Str) : Str :=
  if maxE = 0 then content
  else if countEntries content ≤ maxE then content
  else rebuildLast maxE content

/-- The filesystem state sync_entry can observe and change: whether the
parent directory of the history path exists, and the file content (none =
the file does not exist). -/
structure Fs where
  dirExists : Bool
  file : Option Str
deriving DecidableEq, Repr

/-- The skip decision of the client sync_entry: dedup checks run only when
the file exists (UUID membership first, then the command+timestamp scan). -/
def clientSkip (r : SyncRecord) (file : Option Str) : Bool :=
  match file with
  | some content =>
    decide (r.id ∈ uuidsOf content) || entryExists content r.cmd r.ts
  | none => false

/-- The client sync_entry (atuin-client/src/fish_sync.rs): feature gate,
fish-installed gate, parent directory creation, UUID and command+timestamp
deduplication, locked append of the encoded entry, then trim. -/
def syncEntryClient (enabled installed : Bool) (bound : Nat) (r : SyncRecord)
    (fs : Fs) : Fs :=
  if enabled = false then fs
  else if installed = false then fs
  else if clientSkip r fs.file then { dirExists := true, file := fs.file }
  else
    { dirExists := true,
      file := some (trimModel bound ((fs.file.getD []) ++ encode r)) }

/-- The daemon sync_entry (atuin-daemon/src/fish_sync.rs): feature gate,
fish-installed gate, parent directory creation, unconditional append of the
encoded entry, then trim. No deduplication of any kind. -/
def syncEntryDaemon (enabled installed : Bool) (bound : Nat) (r : SyncRecord)
    (fs : Fs) : Fs :=
  if enabled = false then fs
  else if installed = false then fs
  else
    { dirExists := true,
      file := some (trimModel bound ((fs.file.getD []) ++ encode r)) }

/-- Modelled from the spec: Database::list (the primary store's query used
by sync_all_entries / bootstrap_fish_history) is not part of the repository
fragment; per the spec it returns an ordered sequence of records limited to
the given count — all records when no limit is given, otherwise the most
recent limit records (here: the store list is most-recent-first and a limit
takes that many from it). -/
def listModel (limit : Option Nat) (store : List SyncRecord) : List SyncRecord :=
  match limit with
  | none => store
  | some n => store.take n

/-- sync_all_entries (atuin-client/src/fish_sync.rs): collect the synced
identifiers, fetch the store window with limit Some(max_entries), filter
out already-synced identifiers, run sync_entry on each remaining record
(errors cannot occur in this model, so the returned count is the number of
records attempted, exactly as the Rust counter counts non-error calls). -/
def syncAllClient (enabled installed : Bool) (bound : Nat)
    (store : List SyncRecord) (fs : Fs) : Nat × Fs :=
  if enabled = false then (0, fs)
  else if installed = false then (0, fs)
  else
    let synced := uuidsOf (fs.file.getD [])
    let entries := listModel (some bound) store
    let newE := entries.filter (fun e => ¬ e.id ∈ synced)
    (newE.length,
     newE.foldl (fun acc r => syncEntryClient enabled installed bound r acc) fs)

/-- The observable actions of one successful client sync_entry call, in
program order. -/
inductive SyncEvent where
  | ensureDir | openFile | lockAcquire | writeEntry | flushFile
  | trimInvoke | dropUnlock
deriving DecidableEq, Repr

/-- The event order of the client sync_entry append path: the file handle
is a local of the whole function body, so Rust drops it (releasing the
exclusive lock) at the end of the function — after the trim call that the
function makes while the handle is still live. -/
def syncEntryEvents : List SyncEvent :=
  [.ensureDir, .openFile, .lockAcquire, .writeEntry, .flushFile,
   .trimInvoke, .dropUnlock]

/-- The match the scanning loop computes for one encoded entry against a
candidate command and timestamp string (derived below as the exact per-entry
condition of entry_exists_in_fish_history on encoded content). -/
def matchEnc (x : SyncRecord) (cmd tsStr : Str) : Bool :=
  (decide (trimBoth (trimEnd (escapeCmd x.cmd)) = cmd) ||
      decide (trimStart (trimEnd (escapeCmd x.cmd)) = cmd)) &&
    decide (intStr x.ts = tsStr)

/-- A record whose identifier and command are unproblematic for the
line-oriented shadow-log format: the identifier holds no newline and no
carriage return and does not itself start like a metadata line, and the
command holds no carriage return. -/
def WFrec (r : SyncRecord) : Prop :=
  '\n' ∉ r.id ∧ '\x0d' ∉ r.id ∧ uuidPre.isPrefixOf r.id = false ∧
    '\x0d' ∉ r.cmd

/-- Two records that cannot shadow each other: distinct identifiers and
neither one's encoded entry matches the other under the
command+timestamp existence scan. -/
def Rdistinct (a b : SyncRecord) : Prop :=
  a.id ≠ b.id ∧ matchEnc a b.cmd (intStr b.ts) = false ∧
    matchEnc b a.cmd (intStr a.ts) = false

instance decWFrec (r : SyncRecord) : Decidable (WFrec r) := by
  unfold WFrec
  exact inferInstance

instance decRdistinct (a b : SyncRecord) : Decidable (Rdistinct a b) := by
  unfold Rdistinct
  exact inferInstance

/-- No occurrence of the entry marker anywhere in the string. -/
def noMark (s : Str) : Bool := s.tails.all (fun t => ! marker.isPrefixOf t)

/-- Reassemble the split pieces the way the original content was laid out:
the preamble piece, then each further piece re-prefixed with the marker. -/
def joinPieces : List Str → Str
  | [] => []
  | p :: ps => p ++ (ps.map (fun e => marker ++ e)).flatten

/-- A shell-native two-line entry (no metadata line), as fish itself
writes it. -/
def shellEntry (c : Str) (t : Int) : Str :=
  marker ++ c ++ ['\n'] ++ whenPre ++ intStr t ++ ['\n']

/-- The phase of one in-flight sync_entry call: not yet started; past the
UUID read; past the existence read; entry appended; trimmer holding its
read snapshot; finished (after trim); finished by skipping. -/
inductive Phase where
  | start | c1 | ready | appended
  | trimming (snap : Str)
  | done | skipped
deriving DecidableEq, Repr

/-- Phases whose call has already performed its append. -/
def isActive : Phase → Bool
  | .appended => true | .trimming _ => true | .done => true
  | _ => false

/-- Phases whose call has returned. -/
def isFinished : Phase → Bool
  | .done => true | .skipped => true
  | _ => false

/-- The records of the calls that have already appended, in index order. -/
def activeOf (rs : List SyncRecord) (ph : List Phase) : List SyncRecord :=
  (rs.zip ph).filterMap (fun p => if isActive p.2 then some p.1 else none)

/-- One atomic step of the concurrent execution of N client sync_entry
calls on a shared shadow log (thread i runs sync_entry on record rs[i]).
Atomic units are exactly the file operations of the code: the
get_synced_uuids read, the entry_exists_in_fish_history read, the
lock-protected contiguous append (single write under the exclusive lock),
the trimmer's read (a snapshot — the trimmer is not lock-protected), and
the trimmer's conditional rewrite computed from that snapshot. A missing
file is the empty content (every scan of a missing file yields the same
result as on empty content, and append creates the file). -/
inductive CStep (rs : List SyncRecord) (bound : Nat) :
    Str × List Phase → Str × List Phase → Prop where
  | uuidSkip (f : Str) (ph : List Phase) (i : Nat) (r : SyncRecord)
      (hr : rs.get? i = some r) (hp : ph.get? i = some .start)
      (hc : r.id ∈ uuidsOf f) :
      CStep rs bound (f, ph) (f, ph.set i .skipped)
  | uuidPass (f : Str) (ph : List Phase) (i : Nat) (r : SyncRecord)
      (hr : rs.get? i = some r) (hp : ph.get? i = some .start)
      (hc : r.id ∉ uuidsOf f) :
      CStep rs bound (f, ph) (f, ph.set i .c1)
  | existsSkip (f : Str) (ph : List Phase) (i : Nat) (r : SyncRecord)
      (hr : rs.get? i = some r) (hp : ph.get? i = some .c1)
      (hc : entryExists f r.cmd r.ts = true) :
      CStep rs bound (f, ph) (f, ph.set i .skipped)
  | existsPass (f : Str) (ph : List Phase) (i : Nat) (r : SyncRecord)
      (hr : rs.get? i = some r) (hp : ph.get? i = some .c1)
      (hc : entryExists f r.cmd r.ts = false) :
      CStep rs bound (f, ph) (f, ph.set i .ready)
  | appendStep (f : Str) (ph : List Phase) (i : Nat) (r : SyncRecord)
      (hr : rs.get? i = some r) (hp : ph.get? i = some .ready) :
      CStep rs bound (f, ph) (f ++ encode r, ph.set i .appended)
  | trimRead (f : Str) (ph : List Phase) (i : Nat)
      (hp : ph.get? i = some .appended) :
      CStep rs bound (f, ph) (f, ph.set i (.trimming f))
  | trimSkip (f : Str) (ph : List Phase) (i : Nat) (snap : Str)
      (hp : ph.get? i = some (.trimming snap))
      (hc : bound = 0 ∨ countEntries snap ≤ bound) :
      CStep rs bound (f, ph) (f, ph.set i .done)
  | trimWrite (f : Str) (ph : List Phase) (i : Nat) (snap : Str)
      (hp : ph.get? i = some (.trimming snap))
      (hc : ¬ (bound = 0 ∨ countEntries snap ≤ bound)) :
      CStep rs bound (f, ph) (rebuildLast bound snap, ph.set i .done)

/-- The initial concurrent state: empty shadow log, no call started. -/
def initSt (rs : List SyncRecord) : Str × List Phase :=
  ([], List.replicate rs.length Phase.start)

/-- Reachability of the concurrent small-step system. -/
def Reach (rs : List SyncRecord) (bound : Nat) :
    Str × List Phase → Str × List Phase → Prop :=
  Relation.ReflTransGen (CStep rs bound)

/-- A trimmer snapshot that is a concatenation of encoded entries of at
most as many records as there are calls, all drawn from the call set. -/
def GoodSnap (rs : List SyncRecord) (snap : Str) : Prop :=
  ∃ l, snap = joinEnc l ∧ l.length ≤ rs.length ∧ ∀ x ∈ l, x ∈ rs

/-- The execution invariant: phases align with the call set, no call ever
skips, the file is a concatenation of the encoded entries of exactly the
calls past their append (in some order), and every trimmer snapshot is
well-formed. -/
def Inv (rs : List SyncRecord) (st : Str × List Phase) : Prop :=
  st.2.length = rs.length ∧
  (∀ i, st.2.get? i ≠ some .skipped) ∧
  (∃ l, st.1 = joinEnc l ∧ l.Perm (activeOf rs st.2)) ∧
  (∀ i snap, st.2.get? i = some (.trimming snap) → GoodSnap rs snap)

/-! ### Fuel sufficiency: the fuelled loops compute their recurrences -/

theorem natStrGo_congr :
    ∀ f1 f2 n, n < f1 → n < f2 → natStrGo f1 n = natStrGo f2 n := by
  intro f1
  induction f1 with
  | zero =>
    intro f2 n h1 _
    omega
  | succ f1 ih =>
    intro f2 n h1 h2
    cases f2 with
    | zero => omega
    | succ f2 =>
      simp only [natStrGo]
      by_cases h : n < 10
      · rw [if_pos h, if_pos h]
      · rw [if_neg h, if_neg h, ih f2 (n / 10) (by omega) (by omega)]

theorem natStr_eq (n : Nat) :
    natStr n = if n < 10 then [digitChar n]
      else natStr (n / 10) ++ [digitChar (n % 10)] := by
  have h1 : natStr n = if n < 10 then [digitChar n]
      else natStrGo n (n / 10) ++ [digitChar (n % 10)] := by
    show natStrGo (n + 1) n = _
    simp only [natStrGo]
  rw [h1]
  by_cases h : n < 10
  · rw [if_pos h, if_pos h]
  · rw [if_neg h, if_neg h,
      natStrGo_congr n (n / 10 + 1) (n / 10) (by omega) (by omega)]
    rfl

theorem stripAllPreF_congr :
    ∀ f1 f2 (p s : Str), s.length < f1 → s.length < f2 →
    stripAllPreF f1 p s = stripAllPreF f2 p s := by
  intro f1
  induction f1 with
  | zero =>
    intro f2 p s h1 _
    omega
  | succ f1 ih =>
    intro f2 p s h1 h2
    cases f2 with
    | zero => omega
    | succ f2 =>
      simp only [stripAllPreF]
      by_cases h : p ≠ [] ∧ p.isPrefixOf s
      · rw [if_pos h, if_pos h]
        have hlp : 0 < p.length := List.length_pos.mpr h.1
        have hle : p.length ≤ s.length :=
          (List.isPrefixOf_iff_prefix.mp h.2).length_le
        exact ih f2 p (s.drop p.length)
          (by simp only [List.length_drop]; omega)
          (by simp only [List.length_drop]; omega)
      · rw [if_neg h, if_neg h]

theorem stripAllPre_eq (p s : Str) :
    stripAllPre p s = if p ≠ [] ∧ p.isPrefixOf s
      then stripAllPre p (s.drop p.length) else s := by
  have h1 : stripAllPre p s = if p ≠ [] ∧ p.isPrefixOf s
      then stripAllPreF s.length p (s.drop p.length) else s := by
    show stripAllPreF (s.length + 1) p s = _
    simp only [stripAllPreF]
  rw [h1]
  by_cases h : p ≠ [] ∧ p.isPrefixOf s
  · rw [if_pos h, if_pos h]
    have hlp : 0 < p.length := List.length_pos.mpr h.1
    have hle : p.length ≤ s.length :=
      (List.isPrefixOf_iff_prefix.mp h.2).length_le
    exact stripAllPreF_congr _ _ p _
      (by simp only [List.length_drop]; omega)
      (by simp only [List.length_drop]; omega)
  · rw [if_neg h, if_neg h]

theorem splitGoF_congr :
    ∀ f1 f2 (s acc : Str), s.length < f1 → s.length < f2 →
    splitGoF f1 s acc = splitGoF f2 s acc := by
  intro f1
  induction f1 with
  | zero =>
    intro f2 s acc h1 _
    omega
  | succ f1 ih =>
    intro f2 s acc h1 h2
    cases f2 with
    | zero => omega
    | succ f2 =>
      simp only [splitGoF]
      by_cases h : marker.isPrefixOf s = true
      · rw [if_pos h, if_pos h]
        have hle : marker.length ≤ s.length :=
          (List.isPrefixOf_iff_prefix.mp h).length_le
        rw [show marker.length = 6 from rfl] at hle
        rw [ih f2 (s.drop 6) []
          (by simp only [List.length_drop]; omega)
          (by simp only [List.length_drop]; omega)]
      · rw [if_neg h, if_neg h]
        cases s with
        | nil => rfl
        | cons c rest =>
          show splitGoF f1 rest (c :: acc) = splitGoF f2 rest (c :: acc)
          exact ih f2 rest (c :: acc) (by simp at h1 ⊢; omega)
            (by simp at h2 ⊢; omega)

theorem splitGo_eq (s acc : Str) :
    splitGo s acc = if marker.isPrefixOf s then
        acc.reverse :: splitGo (s.drop 6) []
      else
        match s with
        | [] => [acc.reverse]
        | c :: rest => splitGo rest (c :: acc) := by
  have h1 : splitGo s acc = if marker.isPrefixOf s then
      acc.reverse :: splitGoF s.length (s.drop 6) []
    else
      match s with
      | [] => [acc.reverse]
      | c :: rest => splitGoF s.length rest (c :: acc) := by
    show splitGoF (s.length + 1) s acc = _
    simp only [splitGoF]
  rw [h1]
  by_cases h : marker.isPrefixOf s = true
  · rw [if_pos h, if_pos h]
    have hle : marker.length ≤ s.length :=
      (List.isPrefixOf_iff_prefix.mp h).length_le
    rw [show marker.length = 6 from rfl] at hle
    rw [splitGoF_congr s.length ((s.drop 6).length + 1) (s.drop 6) []
      (by simp only [List.length_drop]; omega) (by omega)]
    rfl
  · rw [if_neg h, if_neg h]
    cases s with
    | nil => rfl
    | cons c rest => rfl

/-! ### Character and trimming lemmas -/

theorem not_ws_of_digit {c : Char} (h : c.isDigit = true) : isUniWs c = false := by
  cases hb : isUniWs c with
  | false => rfl
  | true =>
    exfalso
    have hc : c ∈ ['\x09', '\x0a', '\x0b', '\x0c', '\x0d', ' ', '\u0085',
        ' ', ' ', ' ', ' ', ' ', ' ', ' ',
        ' ', ' ', ' ', ' ', ' ', ' ', ' ',
        ' ', ' ', ' ', '　'] := by
      simpa [isUniWs] using hb
    fin_cases hc <;> simp_all [Char.isDigit]

theorem ne_of_digit {c d : Char} (h : c.isDigit = true) (hd : d.isDigit = false) :
    c ≠ d := by
  intro he
  rw [he] at h
  rw [h] at hd
  exact absurd hd (by simp)

theorem trimStart_cons_of_not_ws {c : Char} {s : Str} (h : isUniWs c = false) :
    trimStart (c :: s) = c :: s := by
  simp [trimStart, h]

theorem trimStart_cons_of_ws {c : Char} {s : Str} (h : isUniWs c = true) :
    trimStart (c :: s) = trimStart s := by
  simp [trimStart, h]

theorem trimEnd_cons_of_not_ws {c : Char} {s : Str} (h : isUniWs c = false) :
    trimEnd (c :: s) = c :: trimEnd s := by
  simp [trimEnd, h]

theorem trimEnd_append (a b : Str) :
    trimEnd (a ++ b) = if trimEnd b = [] then trimEnd a else a ++ trimEnd b := by
  induction a with
  | nil =>
    by_cases hb : trimEnd b = [] <;> simp [hb, trimEnd]
  | cons c a ih =>
    by_cases hb : trimEnd b = []
    · simp only [hb, if_true, List.cons_append]
      rw [trimEnd, trimEnd]
      simp only [ih, hb, if_true]
    · have hne : a ++ trimEnd b ≠ [] := by
        simp [hb]
      simp only [hb, if_false, List.cons_append]
      rw [trimEnd]
      simp only [ih, hb, if_false]
      simp [hne]

theorem trimEnd_concat_not_ws {c : Char} (h : isUniWs c = false) (a : Str) :
    trimEnd (a ++ [c]) = a ++ [c] := by
  have h1 : trimEnd [c] = [c] := by
    rw [trimEnd]
    simp [trimEnd, h]
  rw [trimEnd_append]
  simp [h1]

theorem trimEnd_of_getLast_not_ws {s : Str} {c : Char}
    (hl : s.getLast? = some c) (h : isUniWs c = false) : trimEnd s = s := by
  have hne : s ≠ [] := by
    intro he
    rw [he] at hl
    simp at hl
  have hs : s.dropLast ++ [s.getLast hne] = s := List.dropLast_append_getLast hne
  have hc : s.getLast hne = c := by
    have := List.getLast_eq_iff_getLast?_eq_some hne |>.mpr hl
    exact this
  rw [← hs, hc, trimEnd_concat_not_ws h]

/-! ### Decimal rendering and parsing lemmas -/

theorem digitChar_isDigit {n : Nat} (h : n < 10) : (digitChar n).isDigit = true := by
  interval_cases n <;> decide

theorem digitChar_toNat {n : Nat} (h : n < 10) : (digitChar n).toNat = 48 + n := by
  interval_cases n <;> decide

theorem natStr_ne_nil (n : Nat) : natStr n ≠ [] := by
  rw [natStr_eq]
  split <;> simp

theorem natStr_digits (n : Nat) : ∀ c ∈ natStr n, c.isDigit = true := by
  induction n using Nat.strong_induction_on with
  | _ n ih =>
    rw [natStr_eq]
    by_cases h : n < 10
    · rw [if_pos h]
      intro c hc
      simp at hc
      rw [hc]
      exact digitChar_isDigit h
    · rw [if_neg h]
      intro c hc
      rcases List.mem_append.mp hc with h1 | h2
      · exact ih (n / 10) (by omega) c h1
      · simp at h2
        rw [h2]
        exact digitChar_isDigit (Nat.mod_lt _ (by omega))

theorem natStr_getLast_digit (n : Nat) :
    ∃ c, (natStr n).getLast? = some c ∧ c.isDigit = true := by
  have hne := natStr_ne_nil n
  have hmem : (natStr n).getLast hne ∈ natStr n := List.getLast_mem hne
  exact ⟨(natStr n).getLast hne, List.getLast_eq_iff_getLast?_eq_some hne |>.mp rfl,
    natStr_digits n _ hmem⟩

theorem decimalVal_concat (a : Str) (c : Char) :
    decimalVal (a ++ [c]) = decimalVal a * 10 + (c.toNat - 48) := by
  simp [decimalVal, List.foldl_append]

theorem natStr_val (n : Nat) : decimalVal (natStr n) = n := by
  induction n using Nat.strong_induction_on with
  | _ n ih =>
    rw [natStr_eq]
    by_cases h : n < 10
    · rw [if_pos h]
      simp [decimalVal, digitChar_toNat h]
    · rw [if_neg h]
      rw [decimalVal_concat, ih (n / 10) (by omega),
        digitChar_toNat (Nat.mod_lt _ (by omega))]
      omega

theorem natStr_inj {a b : Nat} (h : natStr a = natStr b) : a = b := by
  have := congrArg decimalVal h
  rwa [natStr_val, natStr_val] at this

theorem intStr_ne_nil (t : Int) : intStr t ≠ [] := by
  rw [intStr]
  split
  · simp
  · exact natStr_ne_nil _

theorem intStr_chars (t : Int) : ∀ c ∈ intStr t, c.isDigit = true ∨ c = '-' := by
  rw [intStr]
  split
  · intro c hc
    rcases List.mem_cons.mp hc with h1 | h2
    · exact Or.inr h1
    · exact Or.inl (natStr_digits _ c h2)
  · intro c hc
    exact Or.inl (natStr_digits _ c hc)

theorem intStr_no_nl (t : Int) : '\n' ∉ intStr t := by
  intro h
  rcases intStr_chars t '\n' h with h1 | h1 <;> simp at h1

theorem intStr_no_cr (t : Int) : '\x0d' ∉ intStr t := by
  intro h
  rcases intStr_chars t '\x0d' h with h1 | h1 <;> simp at h1

theorem intStr_getLast_digit (t : Int) :
    ∃ c, (intStr t).getLast? = some c ∧ c.isDigit = true := by
  rw [intStr]
  split
  · obtain ⟨c, hc, hd⟩ := natStr_getLast_digit (-t).toNat
    refine ⟨c, ?_, hd⟩
    cases hnt : natStr (-t).toNat with
    | nil => exact absurd hnt (natStr_ne_nil _)
    | cons d rest =>
      rw [List.getLast?_cons_cons]
      rw [hnt] at hc
      exact hc
  · exact natStr_getLast_digit _

theorem trimEnd_intStr (t : Int) : trimEnd (intStr t) = intStr t := by
  obtain ⟨c, hc, hd⟩ := intStr_getLast_digit t
  exact trimEnd_of_getLast_not_ws hc (not_ws_of_digit hd)

theorem natStr_head_digit (n : Nat) :
    ∃ c rest, natStr n = c :: rest ∧ c.isDigit = true := by
  cases h : natStr n with
  | nil => exact absurd h (natStr_ne_nil n)
  | cons c rest =>
    exact ⟨c, rest, rfl, natStr_digits n c (by rw [h]; simp)⟩

theorem trimStart_intStr (t : Int) : trimStart (intStr t) = intStr t := by
  rw [intStr]
  split
  · exact trimStart_cons_of_not_ws (by decide)
  · obtain ⟨c, rest, he, hd⟩ := natStr_head_digit t.toNat
    rw [he]
    exact trimStart_cons_of_not_ws (not_ws_of_digit hd)

theorem trimBoth_intStr (t : Int) : trimBoth (intStr t) = intStr t := by
  rw [trimBoth, trimStart_intStr, trimEnd_intStr]

theorem intStr_inj {a b : Int} (h : intStr a = intStr b) : a = b := by
  rw [intStr, intStr] at h
  split at h <;> split at h
  · rename_i ha hb
    have h2 := (List.cons.inj h).2
    have := natStr_inj h2
    omega
  · rename_i ha hb
    obtain ⟨c, rest, he, hd⟩ := natStr_head_digit b.toNat
    rw [he] at h
    have : '-' = c := (List.cons.inj h).1
    exact absurd this.symm (ne_of_digit hd (by decide))
  · rename_i ha hb
    obtain ⟨c, rest, he, hd⟩ := natStr_head_digit a.toNat
    rw [he] at h
    have : c = '-' := (List.cons.inj h).1
    exact absurd this (ne_of_digit hd (by decide))
  · rename_i ha hb
    have := natStr_inj h
    omega

theorem parseI64_intStr {t : Int} (h1 : -(2 ^ 63) ≤ t) (h2 : t < 2 ^ 63) :
    parseI64 (intStr t) = some t := by
  rw [intStr]
  split
  · rename_i hneg
    have hps : parseSign ('-' :: natStr (-t).toNat) = (-1, natStr (-t).toNat) := by
      simp [parseSign]
    rw [parseI64]
    simp only [hps]
    rw [if_neg (natStr_ne_nil _)]
    have hall : ((natStr (-t).toNat).all Char.isDigit) = true :=
      List.all_eq_true.mpr (natStr_digits _)
    rw [if_neg (by simp [hall])]
    have hv : ((-1 : Int) * (decimalVal (natStr (-t).toNat) : Nat)) = t := by
      rw [natStr_val]
      have : ((-t).toNat : Int) = -t := Int.toNat_of_nonneg (by omega)
      rw [this]
      ring
    rw [if_pos (by rw [hv]; exact ⟨h1, h2⟩)]
    rw [hv]
  · rename_i hpos
    obtain ⟨c, rest, he, hd⟩ := natStr_head_digit t.toNat
    have hps : parseSign (natStr t.toNat) = (1, natStr t.toNat) := by
      rw [he, parseSign]
      rw [if_neg (ne_of_digit hd (by decide)), if_neg (ne_of_digit hd (by decide))]
    rw [parseI64]
    simp only [hps]
    rw [if_neg (natStr_ne_nil _)]
    have hall : ((natStr t.toNat).all Char.isDigit) = true :=
      List.all_eq_true.mpr (natStr_digits _)
    rw [if_neg (by simp [hall])]
    have hv : ((1 : Int) * (decimalVal (natStr t.toNat) : Nat)) = t := by
      rw [natStr_val]
      have : (t.toNat : Int) = t := Int.toNat_of_nonneg (by omega)
      rw [this]
      ring
    rw [if_pos (by rw [hv]; exact ⟨h1, h2⟩)]
    rw [hv]

/-! ### Line splitting lemmas -/

theorem splitNl_ne_nil (s : Str) : splitNl s ≠ [] := by
  induction s with
  | nil => simp [splitNl]
  | cons c rest ih =>
    rw [splitNl]
    split
    · simp
    · split
      · simp
      · simp

theorem splitNl_no_nl {l : Str} (h : '\n' ∉ l) : splitNl l = [l] := by
  induction l with
  | nil => rfl
  | cons c rest ih =>
    have hc : c ≠ '\n' := by
      intro he
      exact h (by rw [he]; simp)
    have hr : '\n' ∉ rest := fun hm => h (List.mem_cons_of_mem _ hm)
    rw [splitNl, if_neg hc, ih hr]

theorem splitNl_line {l : Str} (h : '\n' ∉ l) (s : Str) :
    splitNl (l ++ '\n' :: s) = l :: splitNl s := by
  induction l with
  | nil => simp [splitNl]
  | cons c rest ih =>
    have hc : c ≠ '\n' := by
      intro he
      exact h (by rw [he]; simp)
    have hr : '\n' ∉ rest := fun hm => h (List.mem_cons_of_mem _ hm)
    rw [List.cons_append, splitNl, if_neg hc, ih hr]

theorem dropLastEmpty_cons {x : Str} {X : List Str} (h : X ≠ []) :
    dropLastEmpty (x :: X) = x :: dropLastEmpty X := by
  cases X with
  | nil => exact absurd rfl h
  | cons y ys =>
    rw [dropLastEmpty, dropLastEmpty, List.getLast?_cons_cons]
    split
    · rw [List.dropLast_cons₂]
    · rfl

theorem linesOf_nil : linesOf [] = [] := rfl

theorem stripCr_no_cr {l : Str} (h : '\x0d' ∉ l) : stripCr l = l := by
  rw [stripCr]
  split
  · rename_i hl
    exfalso
    exact h (List.mem_of_getLast?_eq_some hl)
  · rfl

theorem linesOf_chunk {l : Str} (h : '\n' ∉ l) (s : Str) :
    linesOf (l ++ '\n' :: s) = stripCr l :: linesOf s := by
  rw [linesOf, splitNl_line h, dropLastEmpty_cons (splitNl_ne_nil s), List.map_cons]
  rfl

/-! ### Escaping lemmas -/

theorem mem_replaceChar {x c : Char} {r s : Str} (h : x ∈ replaceChar c r s) :
    x ∈ r ∨ (x ∈ s ∧ x ≠ c) := by
  rw [replaceChar] at h
  rw [List.mem_flatten] at h
  obtain ⟨piece, hp, hx⟩ := h
  rw [List.mem_map] at hp
  obtain ⟨a, ha, he⟩ := hp
  by_cases hac : a = c
  · rw [← he, if_pos hac] at hx
    exact Or.inl hx
  · rw [← he, if_neg hac] at hx
    simp at hx
    exact Or.inr ⟨hx ▸ ha, hx ▸ hac⟩

theorem escape_chars {x : Char} {s : Str} (h : x ∈ escapeCmd s) :
    x ∈ s ∨ x = '\\' ∨ x = 'n' := by
  rw [escapeCmd] at h
  rcases mem_replaceChar h with h1 | ⟨h1, hne⟩
  · simp at h1
    rcases h1 with h1 | h1
    · exact Or.inr (Or.inl h1)
    · exact Or.inr (Or.inr h1)
  · rcases mem_replaceChar h1 with h2 | ⟨h2, _⟩
    · simp at h2
      exact Or.inr (Or.inl h2)
    · exact Or.inl h2

theorem escape_no_nl (s : Str) : '\n' ∉ escapeCmd s := by
  intro h
  rw [escapeCmd] at h
  rcases mem_replaceChar h with h1 | ⟨_, hne⟩
  · simp at h1
  · exact hne rfl

theorem escape_no_cr {s : Str} (h : '\x0d' ∉ s) : '\x0d' ∉ escapeCmd s := by
  intro hm
  rcases escape_chars hm with h1 | h1 | h1
  · exact h h1
  · simp at h1
  · simp at h1

/-! ### Raw lines of encoded entries -/

theorem encode_assoc (r : SyncRecord) :
    encode r = (marker ++ escapeCmd r.cmd) ++ '\n' ::
      ((whenPre ++ intStr r.ts) ++ '\n' :: ((uuidPre ++ r.id) ++ '\n' :: ([] : Str))) := by
  simp [encode, entryBody]

theorem no_nl_line1 (r : SyncRecord) : '\n' ∉ marker ++ escapeCmd r.cmd := by
  intro h
  rcases List.mem_append.mp h with h1 | h1
  · simp [marker] at h1
  · exact escape_no_nl _ h1

theorem no_nl_line2 (t : Int) : '\n' ∉ whenPre ++ intStr t := by
  intro h
  rcases List.mem_append.mp h with h1 | h1
  · simp [whenPre] at h1
  · exact intStr_no_nl _ h1

theorem no_nl_line3 {i : Str} (hid : '\n' ∉ i) : '\n' ∉ uuidPre ++ i := by
  intro h
  rcases List.mem_append.mp h with h1 | h1
  · simp [uuidPre] at h1
  · exact hid h1

theorem no_cr_line1 {r : SyncRecord} (h : '\x0d' ∉ r.cmd) :
    '\x0d' ∉ marker ++ escapeCmd r.cmd := by
  intro hm
  rcases List.mem_append.mp hm with h1 | h1
  · simp [marker] at h1
  · exact escape_no_cr h h1

theorem no_cr_line2 (t : Int) : '\x0d' ∉ whenPre ++ intStr t := by
  intro h
  rcases List.mem_append.mp h with h1 | h1
  · simp [whenPre] at h1
  · exact intStr_no_cr _ h1

theorem no_cr_line3 {i : Str} (hid : '\x0d' ∉ i) : '\x0d' ∉ uuidPre ++ i := by
  intro h
  rcases List.mem_append.mp h with h1 | h1
  · simp [uuidPre] at h1
  · exact hid h1

theorem linesOf_encode_append (r : SyncRecord) (hWF : WFrec r) (s : Str) :
    linesOf (encode r ++ s) = entryLines r ++ linesOf s := by
  obtain ⟨hid_nl, hid_cr, _, hcmd_cr⟩ := hWF
  have he : encode r ++ s = (marker ++ escapeCmd r.cmd) ++ '\n' ::
      ((whenPre ++ intStr r.ts) ++ '\n' :: ((uuidPre ++ r.id) ++ '\n' :: s)) := by
    rw [encode_assoc]
    simp
  rw [he]
  rw [linesOf_chunk (no_nl_line1 r), linesOf_chunk (no_nl_line2 r.ts),
    linesOf_chunk (no_nl_line3 hid_nl)]
  rw [stripCr_no_cr (no_cr_line1 hcmd_cr), stripCr_no_cr (no_cr_line2 r.ts),
    stripCr_no_cr (no_cr_line3 hid_cr)]
  rfl

theorem joinEnc_cons (r : SyncRecord) (l : List SyncRecord) :
    joinEnc (r :: l) = encode r ++ joinEnc l := by
  simp [joinEnc]

theorem joinEnc_nil : joinEnc [] = [] := rfl

theorem joinEnc_concat (l : List SyncRecord) (r : SyncRecord) :
    joinEnc (l ++ [r]) = joinEnc l ++ encode r := by
  simp [joinEnc]

theorem linesOf_joinEnc (l : List SyncRecord) (h : ∀ r ∈ l, WFrec r) :
    linesOf (joinEnc l) = l.flatMap entryLines := by
  induction l with
  | nil => rfl
  | cons r l ih =>
    rw [joinEnc_cons, linesOf_encode_append r (h r (by simp)),
      ih (fun x hx => h x (List.mem_cons_of_mem _ hx))]
    simp

/-! ### Prefix test lemmas -/

theorem isPrefixOf_append_self (p s : Str) : p.isPrefixOf (p ++ s) = true :=
  List.isPrefixOf_iff_prefix.mpr (List.prefix_append p s)

theorem not_prefix_of_head_ne {a b : Char} {p s : Str} (h : a ≠ b) :
    (a :: p).isPrefixOf (b :: s) = false := by
  cases hb : (a :: p).isPrefixOf (b :: s) with
  | false => rfl
  | true =>
    have := List.isPrefixOf_iff_prefix.mp hb
    rw [List.cons_prefix_cons] at this
    exact absurd this.1 h

theorem isPrefixOf_cons_cons_same (a : Char) (p s : Str) :
    (a :: p).isPrefixOf (a :: s) = p.isPrefixOf s := by
  simp [List.isPrefixOf]

/-! ### UUID scan characterization -/

theorem stripAllPre_id {p s : Str} (h : p.isPrefixOf s = false) :
    stripAllPre p s = s := by
  rw [stripAllPre_eq, if_neg]
  intro hc
  rw [hc.2] at h
  simp at h

theorem stripAllPre_once {p t : Str} (hp : p ≠ []) (h : p.isPrefixOf t = false) :
    stripAllPre p (p ++ t) = t := by
  rw [stripAllPre_eq, if_pos ⟨hp, isPrefixOf_append_self p t⟩]
  rw [List.drop_left, stripAllPre_id h]

theorem uuidPre_not_prefix_line1 (e : Str) :
    uuidPre.isPrefixOf (marker ++ e) = false := by
  have h1 : marker ++ e = '-' :: ([' ', 'c', 'm', 'd', ':'] ++ e) := rfl
  rw [h1, uuidPre]
  exact not_prefix_of_head_ne (by decide)

theorem uuidPre_not_prefix_line2 (e : Str) :
    uuidPre.isPrefixOf (whenPre ++ e) = false := by
  have h1 : whenPre ++ e = ' ' :: ' ' :: 'w' :: (['h', 'e', 'n', ':'] ++ e) := rfl
  rw [h1, uuidPre]
  rw [isPrefixOf_cons_cons_same, isPrefixOf_cons_cons_same]
  exact not_prefix_of_head_ne (by decide)

theorem uuidsOf_entry (r : SyncRecord) (hWF : WFrec r) (ls : List Str) :
    (entryLines r ++ ls).filterMap
        (fun l => if uuidPre.isPrefixOf l then some (stripAllPre uuidPre l)
          else none) =
      r.id :: ls.filterMap
        (fun l => if uuidPre.isPrefixOf l then some (stripAllPre uuidPre l)
          else none) := by
  rw [entryLines]
  rw [List.filterMap_append]
  have h1 : ([marker ++ escapeCmd r.cmd, whenPre ++ intStr r.ts,
      uuidPre ++ r.id] : List Str).filterMap
        (fun l => if uuidPre.isPrefixOf l then some (stripAllPre uuidPre l)
          else none) = [r.id] := by
    rw [List.filterMap_cons, if_neg (by rw [uuidPre_not_prefix_line1]; simp)]
    rw [List.filterMap_cons, if_neg (by rw [uuidPre_not_prefix_line2]; simp)]
    rw [List.filterMap_cons, if_pos (by rw [isPrefixOf_append_self])]
    rw [stripAllPre_once (by simp [uuidPre]) hWF.2.2.1]
    rfl
  rw [h1]
  rfl

theorem uuidsOf_joinEnc (l : List SyncRecord) (h : ∀ r ∈ l, WFrec r) :
    uuidsOf (joinEnc l) = l.map (fun r => r.id) := by
  rw [uuidsOf, linesOf_joinEnc l h]
  induction l with
  | nil => rfl
  | cons r l ih =>
    rw [List.flatMap_cons]
    rw [uuidsOf_entry r (h r (by simp)) _]
    rw [ih (fun x hx => h x (List.mem_cons_of_mem _ hx))]
    rfl

/-! ### Existence scan characterization -/

theorem trimEnd_marker : trimEnd marker = marker := by decide

theorem line1_trim (e : Str) : trimBoth (marker ++ e) = marker ++ trimEnd e := by
  rw [trimBoth]
  have h1 : trimStart (marker ++ e) = marker ++ e := by
    rw [show marker ++ e = '-' :: ([' ', 'c', 'm', 'd', ':'] ++ e) from rfl]
    exact trimStart_cons_of_not_ws (by decide)
  rw [h1, trimEnd_append]
  split
  · rename_i h
    rw [h, trimEnd_marker, List.append_nil]
  · rfl

theorem whenLine_trim (t : Int) :
    trimBoth (whenPre ++ intStr t) = whenP5 ++ intStr t := by
  rw [trimBoth]
  rw [show whenPre ++ intStr t = ' ' :: ' ' :: (whenP5 ++ intStr t) from rfl]
  rw [trimStart_cons_of_ws (by decide), trimStart_cons_of_ws (by decide)]
  rw [show whenP5 ++ intStr t = 'w' :: (['h', 'e', 'n', ':'] ++ intStr t) from rfl]
  rw [trimStart_cons_of_not_ws (by decide)]
  obtain ⟨c, hc, hd⟩ := intStr_getLast_digit t
  apply trimEnd_of_getLast_not_ws _ (not_ws_of_digit hd)
  rw [show ('w' :: (['h', 'e', 'n', ':'] ++ intStr t) : Str) =
    ('w' :: ['h', 'e', 'n', ':']) ++ intStr t from rfl]
  rw [List.getLast?_append_of_ne_nil _ (intStr_ne_nil t)]
  exact hc

theorem uuidLine_trim_head (i : Str) :
    ∃ z, trimBoth (uuidPre ++ i) = '#' :: z := by
  rw [trimBoth]
  rw [show uuidPre ++ i =
    ' ' :: ' ' :: '#' :: ([' ', 'a', 't', 'u', 'i', 'n', '-', 'u', 'u', 'i', 'd', ':'] ++ i) from rfl]
  rw [trimStart_cons_of_ws (by decide), trimStart_cons_of_ws (by decide)]
  rw [trimStart_cons_of_not_ws (by decide)]
  rw [trimEnd_cons_of_not_ws (by decide)]
  exact ⟨_, rfl⟩

theorem marker_not_prefix_head {c : Char} (h : c ≠ '-') (s : Str) :
    marker.isPrefixOf (c :: s) = false := by
  rw [marker]
  exact not_prefix_of_head_ne (Ne.symm h)

theorem entryMatchLine_enc (x : SyncRecord) (cmd tsStr : Str) (rest : List Str) :
    entryMatchLine cmd tsStr (marker ++ escapeCmd x.cmd)
        ((whenPre ++ intStr x.ts) :: rest) = matchEnc x cmd tsStr := by
  simp only [entryMatchLine, line1_trim]
  rw [if_pos (isPrefixOf_append_self marker (trimEnd (escapeCmd x.cmd)))]
  rw [whenLine_trim]
  rw [if_pos (isPrefixOf_append_self whenP5 (intStr x.ts))]
  have hdrop5 : (whenP5 ++ intStr x.ts).drop 5 = intStr x.ts := List.drop_left whenP5 _
  have hdrop6 : (marker ++ trimEnd (escapeCmd x.cmd)).drop 6 = trimEnd (escapeCmd x.cmd) :=
    List.drop_left marker _
  rw [hdrop5, hdrop6, trimBoth_intStr]
  by_cases hte : trimEnd (escapeCmd x.cmd) = []
  · have hlen : ¬ 6 < (marker ++ trimEnd (escapeCmd x.cmd)).length := by
      rw [hte]
      simp [marker]
    rw [if_neg hlen, matchEnc, hte]
    rfl
  · have hlen : 6 < (marker ++ trimEnd (escapeCmd x.cmd)).length := by
      rw [List.length_append]
      have : 0 < (trimEnd (escapeCmd x.cmd)).length := List.length_pos.mpr hte
      simp [marker]
      omega
    rw [if_pos hlen, matchEnc]

theorem entryMatchLine_when (cmd tsStr : Str) (t : Int) (rest : List Str) :
    entryMatchLine cmd tsStr (whenPre ++ intStr t) rest = false := by
  simp only [entryMatchLine, whenLine_trim]
  rw [show whenP5 ++ intStr t = 'w' :: (['h', 'e', 'n', ':'] ++ intStr t) from rfl]
  rw [marker_not_prefix_head (by decide)]
  rfl

theorem entryMatchLine_uuid (cmd tsStr : Str) (i : Str) (rest : List Str) :
    entryMatchLine cmd tsStr (uuidPre ++ i) rest = false := by
  obtain ⟨z, hz⟩ := uuidLine_trim_head i
  simp only [entryMatchLine, hz]
  rw [marker_not_prefix_head (by decide)]
  rfl

theorem entryExistsGo_flat (cmd tsStr : Str) (l : List SyncRecord) :
    entryExistsGo cmd tsStr (l.flatMap entryLines) =
      l.any (fun x => matchEnc x cmd tsStr) := by
  induction l with
  | nil => rfl
  | cons x l ih =>
    rw [List.flatMap_cons, entryLines]
    rw [show ([marker ++ escapeCmd x.cmd, whenPre ++ intStr x.ts,
        uuidPre ++ x.id] : List Str) ++ l.flatMap entryLines =
      (marker ++ escapeCmd x.cmd) :: (whenPre ++ intStr x.ts) ::
        (uuidPre ++ x.id) :: l.flatMap entryLines from rfl]
    rw [entryExistsGo, entryExistsGo, entryExistsGo]
    rw [entryMatchLine_enc, entryMatchLine_when, entryMatchLine_uuid, ih]
    simp

theorem entryExists_joinEnc (l : List SyncRecord) (h : ∀ r ∈ l, WFrec r)
    (cmd : Str) (ts : Int) :
    entryExists (joinEnc l) cmd ts =
      l.any (fun x => matchEnc x cmd (intStr ts)) := by
  rw [entryExists, linesOf_joinEnc l h, entryExistsGo_flat]

/-! ### Marker splitting lemmas -/

theorem splitGoF_ne_nil : ∀ (fuel : Nat) (s acc : Str), splitGoF fuel s acc ≠ [] := by
  intro fuel
  induction fuel with
  | zero =>
    intro s acc
    simp [splitGoF]
  | succ fuel ih =>
    intro s acc
    simp only [splitGoF]
    by_cases h : marker.isPrefixOf s = true
    · rw [if_pos h]
      simp
    · rw [if_neg h]
      cases s with
      | nil => simp
      | cons c rest => exact ih rest (c :: acc)

theorem splitGo_ne_nil (s acc : Str) : splitGo s acc ≠ [] :=
  splitGoF_ne_nil _ s acc

theorem flatten_map_marker {ps : List Str} (h : ps ≠ []) :
    ((ps.map (fun e => marker ++ e)).flatten : Str) = marker ++ joinPieces ps := by
  cases ps with
  | nil => exact absurd rfl h
  | cons q qs =>
    rw [joinPieces]
    simp

theorem marker_not_prefix_nil : marker.isPrefixOf ([] : Str) = false := by
  decide

theorem splitGoF_join :
    ∀ (fuel : Nat) (s acc : Str), s.length < fuel →
    joinPieces (splitGoF fuel s acc) = acc.reverse ++ s := by
  intro fuel
  induction fuel with
  | zero =>
    intro s acc h
    omega
  | succ fuel ih =>
    intro s acc h
    simp only [splitGoF]
    by_cases hp : marker.isPrefixOf s = true
    · rw [if_pos hp]
      obtain ⟨t, ht⟩ := List.isPrefixOf_iff_prefix.mp hp
      have h6 : (6 : Nat) ≤ s.length := by
        have h0 := (List.isPrefixOf_iff_prefix.mp hp).length_le
        rwa [show marker.length = 6 from rfl] at h0
      have hd : s.drop 6 = t := by
        rw [← ht]
        have h0 := List.drop_left marker t
        rwa [show marker.length = 6 from rfl] at h0
      calc joinPieces (acc.reverse :: splitGoF fuel (s.drop 6) [])
          = acc.reverse ++
            ((splitGoF fuel (s.drop 6) []).map (fun e => marker ++ e)).flatten := rfl
        _ = acc.reverse ++ (marker ++ joinPieces (splitGoF fuel (s.drop 6) [])) := by
            rw [flatten_map_marker (splitGoF_ne_nil fuel _ [])]
        _ = acc.reverse ++ (marker ++ s.drop 6) := by
            rw [ih (s.drop 6) [] (by simp only [List.length_drop]; omega)]
            simp
        _ = acc.reverse ++ s := by rw [hd, ht]
    · rw [if_neg hp]
      cases s with
      | nil =>
        show joinPieces [acc.reverse] = acc.reverse ++ []
        rw [joinPieces]
        simp
      | cons c rest =>
        show joinPieces (splitGoF fuel rest (c :: acc)) = acc.reverse ++ c :: rest
        rw [ih rest (c :: acc) (by simp at h ⊢; omega)]
        simp

theorem splitGo_join (s acc : Str) :
    joinPieces (splitGo s acc) = acc.reverse ++ s :=
  splitGoF_join (s.length + 1) s acc (by omega)

theorem splitGo_skip (body rest : Str)
    (h : ∀ i, i < body.length → marker.isPrefixOf (body.drop i ++ rest) = false) :
    ∀ acc, splitGo (body ++ rest) acc = splitGo rest (body.reverse ++ acc) := by
  induction body with
  | nil => simp
  | cons c b ih =>
    intro acc
    have h0 : marker.isPrefixOf (c :: (b ++ rest)) = false := by
      have h1 := h 0 (by simp)
      simpa using h1
    rw [List.cons_append, splitGo_eq, if_neg (by simp [h0])]
    have hsh : ∀ i, i < b.length → marker.isPrefixOf (b.drop i ++ rest) = false := by
      intro i hi
      have h2 := h (i + 1) (by simp; omega)
      simpa using h2
    show splitGo (b ++ rest) (c :: acc) = splitGo rest ((c :: b).reverse ++ acc)
    rw [ih hsh (c :: acc)]
    have he : ((c :: b).reverse ++ acc : Str) = b.reverse ++ (c :: acc) := by
      simp
    rw [he]

theorem prefix_of_prefix_append {p s t : Str} (hps : p.isPrefixOf (s ++ t) = true)
    (hlen : p.length ≤ s.length) : p.isPrefixOf s = true := by
  have hpre := List.isPrefixOf_iff_prefix.mp hps
  have htake : p = (s ++ t).take p.length := List.prefix_iff_eq_take.mp hpre
  rw [List.take_append_of_le_length hlen] at htake
  exact List.isPrefixOf_iff_prefix.mpr (htake ▸ List.take_prefix p.length s)

theorem noMark_drop {s : Str} (h : noMark s = true) (i : Nat) :
    marker.isPrefixOf (s.drop i) = false := by
  have h1 := List.all_eq_true.mp h (s.drop i)
    ((List.mem_tails _ _).mpr (List.drop_suffix i s))
  simpa using h1

theorem noMark_window {body : Str} (hnl : body.getLast? = some '\n')
    (hnm : noMark body = true) (rest : Str) :
    ∀ i, i < body.length → marker.isPrefixOf (body.drop i ++ rest) = false := by
  intro i hi
  cases hb : marker.isPrefixOf (body.drop i ++ rest) with
  | false => rfl
  | true =>
    exfalso
    have hpre : marker <+: (body.drop i ++ rest) := List.isPrefixOf_iff_prefix.mp hb
    have hdne : body.drop i ≠ [] := by
      intro he
      have := congrArg List.length he
      simp at this
      omega
    by_cases hlen : 6 ≤ (body.drop i).length
    · have h1 : marker.isPrefixOf (body.drop i) = true :=
        prefix_of_prefix_append hb
          (by rw [show marker.length = 6 from rfl]; exact hlen)
      rw [noMark_drop hnm i] at h1
      simp at h1
    · have hd_pre : body.drop i <+: (body.drop i ++ rest) := List.prefix_append _ rest
      have hor := List.prefix_or_prefix_of_prefix hd_pre hpre
      have hdm : body.drop i <+: marker := by
        rcases hor with h1 | h1
        · exact h1
        · exfalso
          have h2 := h1.length_le
          rw [show marker.length = 6 from rfl] at h2
          exact hlen h2
      have hlast : (body.drop i).getLast? = some '\n' := by
        have hsplit : body.take i ++ body.drop i = body := List.take_append_drop i body
        have h3 := List.getLast?_append_of_ne_nil (body.take i) hdne
        rw [hsplit] at h3
        rw [← h3]
        exact hnl
      have hmem : '\n' ∈ marker := hdm.subset (List.mem_of_getLast?_eq_some hlast)
      simp [marker] at hmem

theorem entryBody_getLast (r : SyncRecord) : (entryBody r).getLast? = some '\n' := by
  rw [entryBody]
  rw [List.getLast?_append_of_ne_nil _ (by simp)]
  rfl

theorem splitGo_joinEnc (l : List SyncRecord)
    (h : ∀ r ∈ l, noMark (entryBody r) = true) :
    ∀ acc, splitGo (joinEnc l) acc = acc.reverse :: l.map entryBody := by
  induction l with
  | nil =>
    intro acc
    rw [joinEnc_nil, splitGo_eq, if_neg (by simp [marker_not_prefix_nil])]
    show ([acc.reverse] : List Str) = acc.reverse :: List.map entryBody []
    rfl
  | cons r l ih =>
    intro acc
    rw [joinEnc_cons, encode]
    rw [show (marker ++ entryBody r) ++ joinEnc l =
      marker ++ (entryBody r ++ joinEnc l) from by simp]
    rw [splitGo_eq, if_pos (isPrefixOf_append_self marker _)]
    have hdrop : (marker ++ (entryBody r ++ joinEnc l)).drop 6 =
        entryBody r ++ joinEnc l := by
      have h0 := List.drop_left marker (entryBody r ++ joinEnc l)
      rwa [show marker.length = 6 from rfl] at h0
    rw [hdrop]
    rw [splitGo_skip (entryBody r) (joinEnc l)
      (noMark_window (entryBody_getLast r) (h r (by simp)) _) []]
    rw [ih (fun x hx => h x (List.mem_cons_of_mem _ hx))]
    simp

theorem splitMarker_joinEnc (l : List SyncRecord)
    (h : ∀ r ∈ l, noMark (entryBody r) = true) :
    splitMarker (joinEnc l) = [] :: l.map entryBody := by
  rw [splitMarker, splitGo_joinEnc l h []]
  rfl

theorem countEntries_joinEnc (l : List SyncRecord)
    (h : ∀ r ∈ l, noMark (entryBody r) = true) :
    countEntries (joinEnc l) = l.length := by
  rw [countEntries, entriesOf, splitMarker_joinEnc l h]
  simp

theorem trim_nop {bound : Nat} {c : Str}
    (h : bound = 0 ∨ countEntries c ≤ bound) : trimModel bound c = c := by
  rw [trimModel]
  rcases h with h | h
  · rw [if_pos h]
  · split
    · rfl
    · simp [h]

/-! ### Sequential sync_entry lemmas -/

theorem clientSkip_none (r : SyncRecord) : clientSkip r none = false := rfl

theorem clientSkip_joinEnc (r : SyncRecord) (l : List SyncRecord)
    (hWF : ∀ x ∈ l, WFrec x)
    (hid : ∀ x ∈ l, x.id ≠ r.id)
    (hm : ∀ x ∈ l, matchEnc x r.cmd (intStr r.ts) = false) :
    clientSkip r (some (joinEnc l)) = false := by
  rw [clientSkip]
  have h1 : decide (r.id ∈ uuidsOf (joinEnc l)) = false := by
    rw [decide_eq_false_iff_not]
    rw [uuidsOf_joinEnc l hWF]
    intro hmem
    rw [List.mem_map] at hmem
    obtain ⟨x, hx, he⟩ := hmem
    exact hid x hx he
  have h2 : entryExists (joinEnc l) r.cmd r.ts = false := by
    rw [entryExists_joinEnc l hWF]
    rw [List.any_eq_false]
    intro x hx
    rw [hm x hx]
    simp
  rw [h1, h2]
  rfl

theorem syncEntryClient_append (bound : Nat) (r : SyncRecord)
    (l : List SyncRecord) (d : Bool)
    (hWF : ∀ x ∈ l, WFrec x)
    (hid : ∀ x ∈ l, x.id ≠ r.id)
    (hm : ∀ x ∈ l, matchEnc x r.cmd (intStr r.ts) = false)
    (hnm : ∀ x ∈ l ++ [r], noMark (entryBody x) = true)
    (hb : bound = 0 ∨ l.length + 1 ≤ bound) :
    syncEntryClient true true bound r ⟨d, some (joinEnc l)⟩ =
      ⟨true, some (joinEnc (l ++ [r]))⟩ := by
  rw [syncEntryClient]
  rw [if_neg (by simp)]
  rw [if_neg (by simp)]
  rw [if_neg (by simp [clientSkip_joinEnc r l hWF hid hm])]
  have hget : ((⟨d, some (joinEnc l)⟩ : Fs).file.getD [] : Str) = joinEnc l := rfl
  rw [hget]
  have hcount : bound = 0 ∨ countEntries (joinEnc l ++ encode r) ≤ bound := by
    rcases hb with hb | hb
    · exact Or.inl hb
    · refine Or.inr ?_
      rw [← joinEnc_concat]
      rw [countEntries_joinEnc _ hnm]
      simp
      omega
  rw [trim_nop hcount, ← joinEnc_concat]

theorem syncEntryClient_fresh (bound : Nat) (r : SyncRecord) (d : Bool)
    (hnm : noMark (entryBody r) = true)
    (hb : bound = 0 ∨ 1 ≤ bound) :
    syncEntryClient true true bound r ⟨d, none⟩ =
      ⟨true, some (joinEnc [r])⟩ := by
  rw [syncEntryClient]
  rw [if_neg (by simp)]
  rw [if_neg (by simp)]
  rw [if_neg (by simp [clientSkip_none])]
  have hcount : bound = 0 ∨ countEntries (joinEnc [r]) ≤ bound := by
    rcases hb with hb | hb
    · exact Or.inl hb
    · refine Or.inr ?_
      rw [countEntries_joinEnc [r] (by simpa using hnm)]
      simpa using hb
  have he : ((⟨d, none⟩ : Fs).file.getD [] : Str) ++ encode r = joinEnc [r] := by
    simp [joinEnc]
  rw [he, trim_nop hcount]

theorem syncAll_fold (bound : Nat) (todo : List SyncRecord) :
    ∀ processed : List SyncRecord,
    (∀ x ∈ processed ++ todo, WFrec x) →
    (∀ x ∈ processed ++ todo, noMark (entryBody x) = true) →
    (processed ++ todo).Pairwise Rdistinct →
    (bound = 0 ∨ (processed ++ todo).length ≤ bound) →
    todo.foldl (fun acc r => syncEntryClient true true bound r acc)
        ⟨true, some (joinEnc processed)⟩ =
      ⟨true, some (joinEnc (processed ++ todo))⟩ := by
  induction todo with
  | nil =>
    intro processed _ _ _ _
    simp
  | cons r rest ih =>
    intro processed hWF hnm hP hb
    rw [List.foldl_cons]
    have hcross := (List.pairwise_append.mp hP).2.2
    have hid : ∀ x ∈ processed, x.id ≠ r.id :=
      fun x hx => (hcross x hx r (by simp)).1
    have hm : ∀ x ∈ processed, matchEnc x r.cmd (intStr r.ts) = false :=
      fun x hx => (hcross x hx r (by simp)).2.1
    rw [syncEntryClient_append bound r processed true
      (fun x hx => hWF x (List.mem_append_left _ hx)) hid hm
      (fun x hx => by
        rcases List.mem_append.mp hx with h1 | h1
        · exact hnm x (List.mem_append_left _ h1)
        · simp at h1
          exact hnm x (by rw [h1]; simp))
      (by
        rcases hb with hb | hb
        · exact Or.inl hb
        · refine Or.inr ?_
          simp at hb ⊢
          omega)]
    have hre : (processed ++ [r]) ++ rest = processed ++ r :: rest := by
      simp
    have := ih (processed ++ [r]) (by rw [hre]; exact hWF) (by rw [hre]; exact hnm)
      (by rw [hre]; exact hP) (by rw [hre]; exact hb)
    rw [this, hre]

/-! ### Active-set lemmas for the concurrent model -/

theorem activeOf_cons (x : SyncRecord) (rs : List SyncRecord) (p : Phase)
    (ph : List Phase) :
    activeOf (x :: rs) (p :: ph) =
      (if isActive p then [x] else []) ++ activeOf rs ph := by
  by_cases h : isActive p = true
  · simp [activeOf, h]
  · simp [activeOf, h]

theorem activeOf_set_same :
    ∀ (ph : List Phase) (rs : List SyncRecord) (i : Nat) (p p' : Phase),
    ph.get? i = some p → isActive p' = isActive p →
    activeOf rs (ph.set i p') = activeOf rs ph := by
  intro ph
  induction ph with
  | nil =>
    intro rs i p p' hp _
    simp at hp
  | cons q ph ih =>
    intro rs i p p' hp hact
    cases i with
    | zero =>
      rw [List.get?_cons_zero] at hp
      injection hp with hqp
      subst hqp
      cases rs with
      | nil => simp [activeOf]
      | cons x rs =>
        rw [List.set_cons_zero, activeOf_cons, activeOf_cons, hact]
    | succ i =>
      rw [List.get?_cons_succ] at hp
      cases rs with
      | nil => simp [activeOf]
      | cons x rs =>
        rw [List.set_cons_succ, activeOf_cons, activeOf_cons,
          ih rs i p p' hp hact]

theorem activeOf_set_activate :
    ∀ (ph : List Phase) (rs : List SyncRecord) (i : Nat) (r : SyncRecord)
      (p : Phase),
    rs.get? i = some r → ph.get? i = some p → isActive p = false →
    (activeOf rs (ph.set i .appended)).Perm (r :: activeOf rs ph) := by
  intro ph
  induction ph with
  | nil =>
    intro rs i r p hr hp _
    simp at hp
  | cons q ph ih =>
    intro rs i r p hr hp hpa
    cases i with
    | zero =>
      cases rs with
      | nil => simp at hr
      | cons x rs =>
        rw [List.get?_cons_zero] at hr hp
        injection hr with hxr
        injection hp with hqp
        subst hxr
        subst hqp
        rw [List.set_cons_zero, activeOf_cons, activeOf_cons, hpa]
        simp [isActive]
    | succ i =>
      cases rs with
      | nil => simp at hr
      | cons x rs =>
        rw [List.get?_cons_succ] at hr hp
        rw [List.set_cons_succ, activeOf_cons, activeOf_cons]
        have hperm := ih rs i r p hr hp hpa
        by_cases hq : isActive q = true
        · rw [if_pos hq]
          refine List.Perm.trans (hperm.append_left [x]) ?_
          simp only [List.singleton_append]
          exact List.Perm.swap r x _
        · rw [if_neg hq]
          simpa using hperm

theorem activeOf_subset (rs : List SyncRecord) (ph : List Phase) :
    ∀ x ∈ activeOf rs ph, x ∈ rs := by
  intro x hx
  rw [activeOf, List.mem_filterMap] at hx
  obtain ⟨⟨a, b⟩, hmem, he⟩ := hx
  have := List.of_mem_zip hmem
  split at he
  · injection he with he
    subst he
    exact this.1
  · exact absurd he (by simp)

theorem activeOf_index :
    ∀ (ph : List Phase) (rs : List SyncRecord) (x : SyncRecord),
    x ∈ activeOf rs ph →
    ∃ j p, rs.get? j = some x ∧ ph.get? j = some p ∧ isActive p = true := by
  intro ph
  induction ph with
  | nil =>
    intro rs x hx
    simp [activeOf] at hx
  | cons q ph ih =>
    intro rs x hx
    cases rs with
    | nil => simp [activeOf] at hx
    | cons y rs =>
      rw [activeOf_cons] at hx
      rcases List.mem_append.mp hx with h1 | h1
      · by_cases hq : isActive q = true
        · rw [if_pos hq] at h1
          simp at h1
          subst h1
          exact ⟨0, q, rfl, rfl, hq⟩
        · rw [if_neg hq] at h1
          simp at h1
      · obtain ⟨j, p, hj, hp, ha⟩ := ih rs x h1
        exact ⟨j + 1, p, by simpa using hj, by simpa using hp, ha⟩

theorem activeOf_length_le (rs : List SyncRecord) (ph : List Phase) :
    (activeOf rs ph).length ≤ rs.length := by
  calc (activeOf rs ph).length ≤ (rs.zip ph).length :=
      List.length_filterMap_le _ _
    _ ≤ rs.length := by
      rw [List.length_zip]
      exact Nat.min_le_left _ _

theorem activeOf_all_done :
    ∀ (ph : List Phase) (rs : List SyncRecord),
    ph.length = rs.length →
    (∀ i, i < ph.length → ph.get? i = some .done) →
    activeOf rs ph = rs := by
  intro ph
  induction ph with
  | nil =>
    intro rs hlen _
    cases rs with
    | nil => rfl
    | cons x rs => simp at hlen
  | cons q ph ih =>
    intro rs hlen hall
    cases rs with
    | nil => simp at hlen
    | cons x rs =>
      have h0 := hall 0 (by simp)
      rw [List.get?_cons_zero] at h0
      injection h0 with h0
      subst h0
      rw [activeOf_cons]
      have hrest := ih rs (by simpa using hlen) (fun i hi => by
        have h2 := hall (i + 1) (by simp at hi ⊢; omega)
        simpa using h2)
      simp [isActive, hrest]

theorem activeOf_start (n : Nat) :
    ∀ rs : List SyncRecord, activeOf rs (List.replicate n .start) = [] := by
  induction n with
  | zero =>
    intro rs
    simp [activeOf]
  | succ n ih =>
    intro rs
    cases rs with
    | nil => simp [activeOf]
    | cons x rs =>
      rw [List.replicate_succ, activeOf_cons]
      simp [isActive, ih rs]

/-! ### Invariant preservation for the concurrent model -/

theorem get?_set_self {α : Type} (l : List α) (i : Nat) (a : α)
    (h : i < l.length) : (l.set i a).get? i = some a := by
  simp [List.get?_eq_getElem?, List.getElem?_set_self', h]

theorem get?_set_other {α : Type} (l : List α) {i j : Nat} (a : α)
    (h : i ≠ j) : (l.set i a).get? j = l.get? j := by
  simp [List.get?_eq_getElem?, List.getElem?_set_ne h]

theorem pairwise_two {rs : List SyncRecord} (hP : rs.Pairwise Rdistinct)
    {i j : Nat} {a b : SyncRecord}
    (ha : rs.get? i = some a) (hb : rs.get? j = some b) (hij : i ≠ j) :
    Rdistinct a b ∨ Rdistinct b a := by
  obtain ⟨hi, hga⟩ := List.get?_eq_some.mp ha
  obtain ⟨hj, hgb⟩ := List.get?_eq_some.mp hb
  rcases Nat.lt_or_ge i j with hlt | hge
  · left
    have h2 := List.pairwise_iff_get.mp hP ⟨i, hi⟩ ⟨j, hj⟩ hlt
    rwa [hga, hgb] at h2
  · right
    have hlt : j < i := by
      omega
    have h2 := List.pairwise_iff_get.mp hP ⟨j, hj⟩ ⟨i, hi⟩ hlt
    rwa [hga, hgb] at h2

theorem rdistinct_parts {a b : SyncRecord}
    (h : Rdistinct a b ∨ Rdistinct b a) :
    a.id ≠ b.id ∧ matchEnc a b.cmd (intStr b.ts) = false := by
  rcases h with ⟨h1, h2, h3⟩ | ⟨h1, h2, h3⟩
  · exact ⟨h1, h2⟩
  · exact ⟨Ne.symm h1, h3⟩

theorem inv_step {rs : List SyncRecord} {bound : Nat}
    (hWF : ∀ r ∈ rs, WFrec r)
    (hP : rs.Pairwise Rdistinct)
    (hB : bound = 0 ∨
      (rs.length ≤ bound ∧ ∀ r ∈ rs, noMark (entryBody r) = true))
    {st st' : Str × List Phase}
    (hinv : Inv rs st) (hstep : CStep rs bound st st') : Inv rs st' := by
  cases hstep with
  | uuidSkip f ph i r hr hp hc =>
    exfalso
    obtain ⟨hlen, hnoskip, ⟨l, hfile, hperm⟩, hsnap⟩ := hinv
    replace hfile : f = joinEnc l := hfile
    replace hperm : l.Perm (activeOf rs ph) := hperm
    have hWFl : ∀ x ∈ l, WFrec x := fun x hx =>
      hWF x (activeOf_subset rs ph x (hperm.subset hx))
    rw [hfile, uuidsOf_joinEnc l hWFl, List.mem_map] at hc
    obtain ⟨x, hx, hxid⟩ := hc
    obtain ⟨j, p, hj, hpj, hact⟩ := activeOf_index ph rs x (hperm.subset hx)
    have hij : j ≠ i := by
      intro he
      rw [he, hp] at hpj
      injection hpj with hpj
      rw [← hpj] at hact
      simp [isActive] at hact
    exact (rdistinct_parts (pairwise_two hP hj hr hij)).1 hxid
  | uuidPass f ph i r hr hp hc =>
    obtain ⟨hlen, hnoskip, ⟨l, hfile, hperm⟩, hsnap⟩ := hinv
    replace hlen : ph.length = rs.length := hlen
    obtain ⟨hi, _⟩ := List.get?_eq_some.mp hp
    refine ⟨by simpa using hlen, ?_, ⟨l, hfile, ?_⟩, ?_⟩
    · intro j
      by_cases hji : j = i
      · subst hji
        rw [get?_set_self ph j _ hi]
        simp
      · rw [get?_set_other ph _ (Ne.symm hji)]
        exact hnoskip j
    · have hsame : activeOf rs (ph.set i Phase.c1) = activeOf rs ph :=
        activeOf_set_same ph rs i Phase.start Phase.c1 hp rfl
      rw [show ((f, ph.set i Phase.c1) : Str × List Phase).2 =
        ph.set i Phase.c1 from rfl, hsame]
      exact hperm
    · intro j snap hj
      by_cases hji : j = i
      · subst hji
        rw [get?_set_self ph j _ hi] at hj
        exact absurd hj (by simp)
      · rw [get?_set_other ph _ (Ne.symm hji)] at hj
        exact hsnap j snap hj
  | existsSkip f ph i r hr hp hc =>
    exfalso
    obtain ⟨hlen, hnoskip, ⟨l, hfile, hperm⟩, hsnap⟩ := hinv
    replace hfile : f = joinEnc l := hfile
    replace hperm : l.Perm (activeOf rs ph) := hperm
    have hWFl : ∀ x ∈ l, WFrec x := fun x hx =>
      hWF x (activeOf_subset rs ph x (hperm.subset hx))
    rw [hfile, entryExists_joinEnc l hWFl, List.any_eq_true] at hc
    obtain ⟨x, hx, hxm⟩ := hc
    obtain ⟨j, p, hj, hpj, hact⟩ := activeOf_index ph rs x (hperm.subset hx)
    have hij : j ≠ i := by
      intro he
      rw [he, hp] at hpj
      injection hpj with hpj
      rw [← hpj] at hact
      simp [isActive] at hact
    have hfalse := (rdistinct_parts (pairwise_two hP hj hr hij)).2
    rw [hfalse] at hxm
    exact absurd hxm (by simp)
  | existsPass f ph i r hr hp hc =>
    obtain ⟨hlen, hnoskip, ⟨l, hfile, hperm⟩, hsnap⟩ := hinv
    replace hlen : ph.length = rs.length := hlen
    obtain ⟨hi, _⟩ := List.get?_eq_some.mp hp
    refine ⟨by simpa using hlen, ?_, ⟨l, hfile, ?_⟩, ?_⟩
    · intro j
      by_cases hji : j = i
      · subst hji
        rw [get?_set_self ph j _ hi]
        simp
      · rw [get?_set_other ph _ (Ne.symm hji)]
        exact hnoskip j
    · have hsame : activeOf rs (ph.set i Phase.ready) = activeOf rs ph :=
        activeOf_set_same ph rs i Phase.c1 Phase.ready hp rfl
      rw [show ((f, ph.set i Phase.ready) : Str × List Phase).2 =
        ph.set i Phase.ready from rfl, hsame]
      exact hperm
    · intro j snap hj
      by_cases hji : j = i
      · subst hji
        rw [get?_set_self ph j _ hi] at hj
        exact absurd hj (by simp)
      · rw [get?_set_other ph _ (Ne.symm hji)] at hj
        exact hsnap j snap hj
  | appendStep f ph i r hr hp =>
    obtain ⟨hlen, hnoskip, ⟨l, hfile, hperm⟩, hsnap⟩ := hinv
    replace hlen : ph.length = rs.length := hlen
    replace hfile : f = joinEnc l := hfile
    replace hperm : l.Perm (activeOf rs ph) := hperm
    obtain ⟨hi, _⟩ := List.get?_eq_some.mp hp
    refine ⟨by simpa using hlen, ?_, ⟨l ++ [r], ?_, ?_⟩, ?_⟩
    · intro j
      by_cases hji : j = i
      · subst hji
        rw [get?_set_self ph j _ hi]
        simp
      · rw [get?_set_other ph _ (Ne.symm hji)]
        exact hnoskip j
    · show f ++ encode r = joinEnc (l ++ [r])
      rw [hfile, joinEnc_concat]
    · show (l ++ [r]).Perm (activeOf rs (ph.set i Phase.appended))
      have hact := activeOf_set_activate ph rs i r Phase.ready hr hp rfl
      refine List.Perm.trans (List.perm_append_singleton r l) ?_
      exact List.Perm.trans (hperm.cons r) hact.symm
    · intro j snap hj
      by_cases hji : j = i
      · subst hji
        rw [get?_set_self ph j _ hi] at hj
        exact absurd hj (by simp)
      · rw [get?_set_other ph _ (Ne.symm hji)] at hj
        exact hsnap j snap hj
  | trimRead f ph i hp =>
    obtain ⟨hlen, hnoskip, ⟨l, hfile, hperm⟩, hsnap⟩ := hinv
    replace hlen : ph.length = rs.length := hlen
    replace hfile : f = joinEnc l := hfile
    replace hperm : l.Perm (activeOf rs ph) := hperm
    obtain ⟨hi, _⟩ := List.get?_eq_some.mp hp
    refine ⟨by simpa using hlen, ?_, ⟨l, hfile, ?_⟩, ?_⟩
    · intro j
      by_cases hji : j = i
      · subst hji
        rw [get?_set_self ph j _ hi]
        simp
      · rw [get?_set_other ph _ (Ne.symm hji)]
        exact hnoskip j
    · have hsame : activeOf rs (ph.set i (Phase.trimming f)) = activeOf rs ph :=
        activeOf_set_same ph rs i Phase.appended (Phase.trimming f) hp rfl
      rw [show ((f, ph.set i (Phase.trimming f)) : Str × List Phase).2 =
        ph.set i (Phase.trimming f) from rfl, hsame]
      exact hperm
    · intro j snap hj
      by_cases hji : j = i
      · subst hji
        rw [get?_set_self ph j _ hi] at hj
        injection hj with hj
        injection hj with hj
        subst hj
        refine ⟨l, hfile, ?_, fun x hx => activeOf_subset rs ph x (hperm.subset hx)⟩
        rw [hperm.length_eq]
        exact activeOf_length_le rs ph
      · rw [get?_set_other ph _ (Ne.symm hji)] at hj
        exact hsnap j snap hj
  | trimSkip f ph i snap hp hc =>
    obtain ⟨hlen, hnoskip, ⟨l, hfile, hperm⟩, hsnap⟩ := hinv
    replace hlen : ph.length = rs.length := hlen
    obtain ⟨hi, _⟩ := List.get?_eq_some.mp hp
    refine ⟨by simpa using hlen, ?_, ⟨l, hfile, ?_⟩, ?_⟩
    · intro j
      by_cases hji : j = i
      · subst hji
        rw [get?_set_self ph j _ hi]
        simp
      · rw [get?_set_other ph _ (Ne.symm hji)]
        exact hnoskip j
    · have hsame : activeOf rs (ph.set i Phase.done) = activeOf rs ph :=
        activeOf_set_same ph rs i (Phase.trimming snap) Phase.done hp rfl
      rw [show ((f, ph.set i Phase.done) : Str × List Phase).2 =
        ph.set i Phase.done from rfl, hsame]
      exact hperm
    · intro j snap2 hj
      by_cases hji : j = i
      · subst hji
        rw [get?_set_self ph j _ hi] at hj
        exact absurd hj (by simp)
      · rw [get?_set_other ph _ (Ne.symm hji)] at hj
        exact hsnap j snap2 hj
  | trimWrite f ph i snap hp hc =>
    exfalso
    obtain ⟨hlen, hnoskip, ⟨l, hfile, hperm⟩, hsnap⟩ := hinv
    obtain ⟨l2, hsj, hlen2, hsub⟩ := hsnap i snap hp
    rcases hB with hB | ⟨hble, hnm⟩
    · exact hc (Or.inl hB)
    · refine hc (Or.inr ?_)
      rw [hsj, countEntries_joinEnc l2 (fun x hx => hnm x (hsub x hx))]
      omega

theorem inv_init (rs : List SyncRecord) : Inv rs (initSt rs) := by
  refine ⟨by simp [initSt], ?_, ⟨[], rfl, ?_⟩, ?_⟩
  · intro i
    show (List.replicate rs.length Phase.start).get? i ≠ some Phase.skipped
    by_cases h : i < rs.length
    · rw [List.get?_eq_getElem?]
      simp [List.getElem?_replicate, h]
    · rw [List.get?_eq_getElem?]
      simp [List.getElem?_replicate, h]
  · show ([] : List SyncRecord).Perm (activeOf rs (List.replicate rs.length Phase.start))
    rw [activeOf_start]
  · intro i snap hj
    replace hj : (List.replicate rs.length Phase.start).get? i =
      some (Phase.trimming snap) := hj
    by_cases h : i < rs.length
    · rw [List.get?_eq_getElem?] at hj
      simp [List.getElem?_replicate, h] at hj
    · rw [List.get?_eq_getElem?] at hj
      simp [List.getElem?_replicate, h] at hj

theorem inv_reach {rs : List SyncRecord} {bound : Nat}
    (hWF : ∀ r ∈ rs, WFrec r)
    (hP : rs.Pairwise Rdistinct)
    (hB : bound = 0 ∨
      (rs.length ≤ bound ∧ ∀ r ∈ rs, noMark (entryBody r) = true))
    {st : Str × List Phase}
    (h : Reach rs bound (initSt rs) st) : Inv rs st := by
  induction h with
  | refl => exact inv_init rs
  | tail hsteps hstep ih => exact inv_step hWF hP hB ih hstep

/-! ### Codec helpers for the round-trip claims -/

theorem linesOf_encode (r : SyncRecord) (hWF : WFrec r) :
    linesOf (encode r) = entryLines r := by
  have h := linesOf_encode_append r hWF []
  simpa using h

theorem uuidsOf_encode (r : SyncRecord) (hWF : WFrec r) :
    uuidsOf (encode r) = [r.id] := by
  have h := uuidsOf_joinEnc [r] (by simpa using hWF)
  simpa [joinEnc] using h

theorem whenPre_not_prefix_line1 (e : Str) :
    whenPre.isPrefixOf (marker ++ e) = false := by
  have h1 : marker ++ e = '-' :: ([' ', 'c', 'm', 'd', ':'] ++ e) := rfl
  rw [h1, whenPre]
  exact not_prefix_of_head_ne (by decide)

theorem whenPre_not_prefix_line3 (i : Str) :
    whenPre.isPrefixOf (uuidPre ++ i) = false := by
  have h1 : uuidPre ++ i = ' ' :: ' ' :: '#' ::
      ([' ', 'a', 't', 'u', 'i', 'n', '-', 'u', 'u', 'i', 'd', ':'] ++ i) := rfl
  rw [h1, whenPre]
  rw [isPrefixOf_cons_cons_same, isPrefixOf_cons_cons_same]
  exact not_prefix_of_head_ne (by decide)

theorem whenPre_not_prefix_intStr (t : Int) :
    whenPre.isPrefixOf (intStr t) = false := by
  rw [intStr]
  split
  · rw [whenPre]
    exact not_prefix_of_head_ne (by decide)
  · obtain ⟨c, rest, he, hd⟩ := natStr_head_digit _
    rw [he, whenPre]
    exact not_prefix_of_head_ne (Ne.symm (ne_of_digit hd (by decide)))

theorem lastTimestamp_encode (r : SyncRecord) (hWF : WFrec r)
    (h1 : -(2 ^ 63) ≤ r.ts) (h2 : r.ts < 2 ^ 63) :
    lastTimestamp (encode r) = some r.ts := by
  rw [lastTimestamp, linesOf_encode r hWF, entryLines]
  rw [show ([marker ++ escapeCmd r.cmd, whenPre ++ intStr r.ts,
      uuidPre ++ r.id] : List Str).reverse =
    [uuidPre ++ r.id, whenPre ++ intStr r.ts, marker ++ escapeCmd r.cmd] from by
      simp]
  rw [List.find?_cons_of_neg _ (by simp [whenPre_not_prefix_line3])]
  rw [List.find?_cons_of_pos _ (by simp [isPrefixOf_append_self])]
  rw [Option.some_bind]
  rw [stripAllPre_once (by simp [whenPre]) (whenPre_not_prefix_intStr r.ts)]
  exact parseI64_intStr h1 h2

/-! ### Escaping characterization -/

theorem replaceChar_append (c : Char) (r : Str) (a b : Str) :
    replaceChar c r (a ++ b) = replaceChar c r a ++ replaceChar c r b := by
  simp [replaceChar]

theorem escapeCmd_cons (x : Char) (s : Str) :
    escapeCmd (x :: s) = (if x = '\\' then ['\\', '\\']
      else if x = '\n' then ['\\', 'n'] else [x]) ++ escapeCmd s := by
  rw [escapeCmd, escapeCmd]
  rw [show replaceChar '\\' ['\\', '\\'] (x :: s) =
    (if x = '\\' then (['\\', '\\'] : Str) else [x]) ++
      replaceChar '\\' ['\\', '\\'] s from by simp [replaceChar]]
  rw [replaceChar_append]
  by_cases h1 : x = '\\'
  · subst h1
    simp [replaceChar]
  · by_cases h2 : x = '\n'
    · subst h2
      simp [replaceChar]
    · simp [replaceChar, h1, h2]

theorem escapeCmd_flatMap (s : Str) :
    escapeCmd s = s.flatMap (fun c => if c = '\\' then ['\\', '\\']
      else if c = '\n' then ['\\', 'n'] else [c]) := by
  induction s with
  | nil => rfl
  | cons c s ih =>
    rw [escapeCmd_cons, List.flatMap_cons, ih]

/-! ### Locating a shell-native entry inside arbitrary content -/

theorem splitNl_append_pre {A : Str} (h : A.getLast? = some '\n') (X : Str) :
    ∃ LA : List Str, LA ≠ [] ∧ splitNl (A ++ X) = LA ++ splitNl X := by
  induction A with
  | nil => simp at h
  | cons c A ih =>
    cases A with
    | nil =>
      simp at h
      subst h
      refine ⟨[[]], by simp, ?_⟩
      rw [show ('\n' :: ([] : Str)) ++ X = '\n' :: X from rfl]
      rw [splitNl, if_pos rfl]
      rfl
    | cons d A2 =>
      rw [List.getLast?_cons_cons] at h
      obtain ⟨LA, hne, hsp⟩ := ih h
      by_cases hc : c = '\n'
      · subst hc
        refine ⟨[] :: LA, by simp, ?_⟩
        rw [show ('\n' :: (d :: A2)) ++ X = '\n' :: ((d :: A2) ++ X) from rfl]
        rw [splitNl, if_pos rfl, hsp]
        rfl
      · obtain ⟨m, ms, hLA⟩ : ∃ m ms, LA = m :: ms := by
          cases hx : LA with
          | nil => exact absurd hx hne
          | cons a b => exact ⟨a, b, rfl⟩
        subst hLA
        refine ⟨(c :: m) :: ms, by simp, ?_⟩
        rw [show (c :: (d :: A2)) ++ X = c :: ((d :: A2) ++ X) from rfl]
        rw [splitNl, if_neg hc, hsp]
        rfl

theorem dropLastEmpty_append (Y Z : List Str) (h : Z ≠ []) :
    dropLastEmpty (Y ++ Z) = Y ++ dropLastEmpty Z := by
  induction Y with
  | nil => rfl
  | cons y Y ih =>
    rw [List.cons_append, dropLastEmpty_cons (by simp [h]), ih]
    rfl

theorem linesOf_append_pre {A : Str} (h : A = [] ∨ A.getLast? = some '\n')
    (X : Str) : ∃ LA : List Str, linesOf (A ++ X) = LA ++ linesOf X := by
  rcases h with h | h
  · subst h
    exact ⟨[], by simp⟩
  · obtain ⟨LA, hne, hsp⟩ := splitNl_append_pre h X
    refine ⟨LA.map stripCr, ?_⟩
    rw [linesOf, hsp, dropLastEmpty_append _ _ (splitNl_ne_nil X), List.map_append]
    rfl

theorem entryExistsGo_append_true (cmd tsStr : Str) (X : List Str)
    {l1 l2 : Str} (Y : List Str)
    (h : entryMatchLine cmd tsStr l1 (l2 :: Y) = true) :
    entryExistsGo cmd tsStr (X ++ l1 :: l2 :: Y) = true := by
  induction X with
  | nil =>
    rw [List.nil_append, entryExistsGo, h]
    simp
  | cons a X ih =>
    rw [List.cons_append, entryExistsGo, ih]
    simp

theorem entryMatchLine_shell (cmd : Str) (t : Int)
    (hcS : trimStart cmd = cmd) (hcE : trimEnd cmd = cmd) (Y : List Str) :
    entryMatchLine cmd (intStr t) (marker ++ cmd)
      ((whenPre ++ intStr t) :: Y) = true := by
  simp only [entryMatchLine, line1_trim, hcE]
  rw [if_pos (isPrefixOf_append_self marker cmd)]
  rw [whenLine_trim]
  rw [if_pos (isPrefixOf_append_self whenP5 (intStr t))]
  have hdrop5 : (whenP5 ++ intStr t).drop 5 = intStr t := by
    have h0 := List.drop_left whenP5 (intStr t)
    rwa [show whenP5.length = 5 from rfl] at h0
  have hdrop6 : (marker ++ cmd).drop 6 = cmd := by
    have h0 := List.drop_left marker cmd
    rwa [show marker.length = 6 from rfl] at h0
  rw [hdrop5, hdrop6, trimBoth_intStr]
  by_cases hc0 : cmd = []
  · subst hc0
    simp [marker]
  · have hlen : 6 < (marker ++ cmd).length := by
      rw [List.length_append]
      have h3 : 0 < cmd.length := List.length_pos.mpr hc0
      rw [show marker.length = 6 from rfl]
      omega
    rw [if_pos hlen]
    rw [show trimBoth cmd = cmd from by rw [trimBoth, hcS, hcE]]
    simp

/-! ### Claim theorems -/

/-- C9: with the feature disabled (fish_sync.enabled = false) sync_entry
returns success and leaves the filesystem entirely unchanged: no shadow-log
file is created, no parent directory is created, and an existing shadow log
keeps its exact bytes — both the client and the daemon variant
short-circuit before any filesystem access. -/
theorem c9_disabled_noop (installed : Bool) (bound : Nat) (r : SyncRecord)
    (fs : Fs) :
    syncEntryClient false installed bound r fs = fs ∧
    syncEntryDaemon false installed bound r fs = fs := by
  constructor <;> rfl

/-- C5 (code evidence): in the client sync_entry the retention trimmer is
invoked while the exclusive lock is still held — the locked file handle is
a local of the whole function body, so Rust drops it (releasing the flock)
only at the end of the function, after the trim_fish_history call; the
modelled event order of the append path therefore places the trimmer
invocation strictly before the lock release. -/
theorem c5_trim_before_unlock :
    syncEntryEvents.indexOf SyncEvent.trimInvoke <
      syncEntryEvents.indexOf SyncEvent.dropUnlock := by
  decide

/-- C7 (code evidence): with the configured bound 0 the reconcile path
passes Some(0) as the query limit, so the fetched window is empty and
nothing is synced even though the primary store holds an unsynced record —
the code does not treat 0 as unbounded at the fetch. -/
theorem c7_zero_bound_fetches_nothing :
    listModel (some 0) [⟨"a1".data, "ls".data, 0⟩] = [] ∧
    syncAllClient true true 0 [⟨"a1".data, "ls".data, 0⟩] ⟨true, none⟩ =
      (0, ⟨true, none⟩) ∧
    ([⟨"a1".data, "ls".data, 0⟩] : List SyncRecord) ≠ [] := by
  refine ⟨rfl, by decide, by simp⟩

/-- C6 (counterexample): the client sync_entry does deduplicate by
identifier: a second call with the same record leaves the shadow log
unchanged with a single entry, so the claim that every call appends
regardless of the identifier already being present is false on the client
variant. -/
theorem c6_dedup_counterexample :
    syncEntryClient true true 0 ⟨"a1".data, "ls".data, 0⟩
        (syncEntryClient true true 0 ⟨"a1".data, "ls".data, 0⟩ ⟨false, none⟩) =
      syncEntryClient true true 0 ⟨"a1".data, "ls".data, 0⟩ ⟨false, none⟩ ∧
    countEntries ((syncEntryClient true true 0 ⟨"a1".data, "ls".data, 0⟩
        ⟨false, none⟩).file.getD []) = 1 := by
  decide

/-- C6 (amended): the daemon variant's sync_entry performs no
deduplication of any kind — every call appends the encoded entry
unconditionally, so repeated calls with the same record produce duplicate
entries; the client variant, by contrast, skips records whose identifier
(or command+timestamp) is already present. -/
theorem c6_daemon_no_dedup (r : SyncRecord) (fs : Fs)
    (hnm : noMark (entryBody r) = true) :
    syncEntryDaemon true true 0 r (syncEntryDaemon true true 0 r fs) =
      ⟨true, some (fs.file.getD [] ++ encode r ++ encode r)⟩ ∧
    (fs.file = none →
      countEntries ((syncEntryDaemon true true 0 r
        (syncEntryDaemon true true 0 r fs)).file.getD []) = 2) := by
  have htrim : ∀ c : Str, trimModel 0 c = c := fun c => trim_nop (Or.inl rfl)
  have h1 : syncEntryDaemon true true 0 r fs =
      ⟨true, some (fs.file.getD [] ++ encode r)⟩ := by
    rw [syncEntryDaemon, if_neg (by simp), if_neg (by simp), htrim]
  have h2 : syncEntryDaemon true true 0 r
      ⟨true, some (fs.file.getD [] ++ encode r)⟩ =
      ⟨true, some (fs.file.getD [] ++ encode r ++ encode r)⟩ := by
    rw [syncEntryDaemon, if_neg (by simp), if_neg (by simp), htrim]
    rfl
  refine ⟨by rw [h1, h2], ?_⟩
  intro hnone
  rw [h1, h2, hnone]
  show countEntries (([] : Str) ++ encode r ++ encode r) = 2
  rw [show (([] : Str) ++ encode r ++ encode r) = joinEnc [r, r] from by
    simp [joinEnc]]
  rw [countEntries_joinEnc [r, r] (by
    intro x hx
    simp at hx
    rw [hx]
    exact hnm)]
  rfl

/-- C6 witness: the daemon duplication at a concrete record. -/
theorem c6_daemon_no_dedup_witness :
    noMark (entryBody ⟨"a1".data, "ls".data, 0⟩) = true ∧
    (syncEntryDaemon true true 0 ⟨"a1".data, "ls".data, 0⟩
        (syncEntryDaemon true true 0 ⟨"a1".data, "ls".data, 0⟩ ⟨false, none⟩) =
      ⟨true, some ((⟨false, none⟩ : Fs).file.getD [] ++
        encode ⟨"a1".data, "ls".data, 0⟩ ++ encode ⟨"a1".data, "ls".data, 0⟩)⟩ ∧
    ((⟨false, none⟩ : Fs).file = none →
      countEntries ((syncEntryDaemon true true 0 ⟨"a1".data, "ls".data, 0⟩
        (syncEntryDaemon true true 0 ⟨"a1".data, "ls".data, 0⟩
          ⟨false, none⟩)).file.getD []) = 2)) :=
  ⟨by decide, c6_daemon_no_dedup ⟨"a1".data, "ls".data, 0⟩ ⟨false, none⟩ (by decide)⟩

/-- C3 (counterexample): for a record whose identifier contains a newline,
format_fish_entry does not produce three lines — the identifier is written
verbatim into the metadata line, so the encoding has four lines. -/
theorem c3_encode_counterexample :
    (linesOf (encode ⟨('a' :: '\n' :: 'b' :: []), "ls".data, 0⟩)).length ≠ 3 ∧
    (linesOf (encode ⟨('a' :: '\n' :: 'b' :: []), "ls".data, 0⟩)).length = 4 := by
  decide

/-- C3 (amended): for every record whose identifier contains no newline
and no carriage return and does not itself start like a metadata line, and
whose command contains no carriage return, format_fish_entry produces
exactly three lines — the marker line with the escaped command, the
two-space when-line with the decimal timestamp, and the two-space metadata
line with the identifier — and the escaping maps each backslash to a
double backslash, each newline to backslash-n, and every other character
to itself. -/
theorem c3_encode_amended (r : SyncRecord) (hWF : WFrec r) :
    linesOf (encode r) =
      [marker ++ escapeCmd r.cmd, whenPre ++ intStr r.ts, uuidPre ++ r.id] ∧
    escapeCmd r.cmd = r.cmd.flatMap (fun c =>
      if c = '\\' then ['\\', '\\'] else if c = '\n' then ['\\', 'n']
      else [c]) := by
  refine ⟨?_, escapeCmd_flatMap r.cmd⟩
  rw [linesOf_encode r hWF]
  rfl

/-- C3 witness: the three-line shape at a concrete record with a negative
timestamp and a command containing a backslash and a newline. -/
theorem c3_encode_witness :
    WFrec ⟨"a1".data, ('e' :: '\\' :: '\n' :: 'x' :: []), (-3 : Int)⟩ ∧
    (linesOf (encode ⟨"a1".data, ('e' :: '\\' :: '\n' :: 'x' :: []), (-3 : Int)⟩) =
      [marker ++ escapeCmd ('e' :: '\\' :: '\n' :: 'x' :: []),
       whenPre ++ intStr (-3 : Int), uuidPre ++ "a1".data] ∧
    escapeCmd ('e' :: '\\' :: '\n' :: 'x' :: []) =
      ('e' :: '\\' :: '\n' :: 'x' :: []).flatMap (fun c =>
        if c = '\\' then ['\\', '\\'] else if c = '\n' then ['\\', 'n']
        else [c])) :=
  ⟨by decide, c3_encode_amended ⟨"a1".data, ('e' :: '\\' :: '\n' :: 'x' :: []),
    (-3 : Int)⟩ (by decide)⟩

/-- C4 (counterexample): for a record whose identifier embeds a newline
and a fake timestamp line, extracting the timestamp from the encoded bytes
as get_last_synced_timestamp does returns the fake value, not the
record's timestamp — the round trip fails as universally stated. -/
theorem c4_roundtrip_counterexample :
    lastTimestamp (encode ⟨("x\n  when:999").data, "x".data, 5⟩) = some 999 ∧
    (999 : Int) ≠ 5 := by
  decide

/-- C4 (amended): for every record with a well-formed identifier (no
newline, no carriage return, not itself starting like a metadata line),
a command without carriage returns, and a timestamp within the i64 range
(negative values included), extracting the timestamp field from the
encoded bytes as get_last_synced_timestamp does yields the original
timestamp, and extracting the metadata field as get_synced_uuids does
yields exactly the original identifier. -/
theorem c4_roundtrip_amended (r : SyncRecord) (hWF : WFrec r)
    (h1 : -(2 ^ 63) ≤ r.ts) (h2 : r.ts < 2 ^ 63) :
    lastTimestamp (encode r) = some r.ts ∧ uuidsOf (encode r) = [r.id] :=
  ⟨lastTimestamp_encode r hWF h1 h2, uuidsOf_encode r hWF⟩

/-- C4 witness: the round trip at a concrete record with a negative
timestamp. -/
theorem c4_roundtrip_witness :
    (WFrec ⟨"a1".data, "ls".data, (-45 : Int)⟩ ∧
      -(2 ^ 63) ≤ (-45 : Int) ∧ (-45 : Int) < 2 ^ 63) ∧
    (lastTimestamp (encode ⟨"a1".data, "ls".data, (-45 : Int)⟩) =
        some ((⟨"a1".data, "ls".data, (-45 : Int)⟩ : SyncRecord).ts) ∧
      uuidsOf (encode ⟨"a1".data, "ls".data, (-45 : Int)⟩) =
        [(⟨"a1".data, "ls".data, (-45 : Int)⟩ : SyncRecord).id]) :=
  ⟨⟨by decide, by decide, by decide⟩,
    c4_roundtrip_amended ⟨"a1".data, "ls".data, (-45 : Int)⟩ (by decide)
      (by decide) (by decide)⟩

/-- C2 (counterexample): at the bound N = 0 the claim fails — a file with
one entry (more than 0) is left byte-identical by trim (0 means no limit),
instead of being rewritten to "exactly the last 0 entries" (the empty
content). -/
theorem c2_trim_counterexample :
    countEntries ("- cmd:x\n").data = 1 ∧
    trimModel 0 ("- cmd:x\n").data = ("- cmd:x\n").data ∧
    (((entriesOf ("- cmd:x\n").data).drop
        ((entriesOf ("- cmd:x\n").data).length - 0)).map
      (fun e => marker ++ e)).flatten = [] ∧
    ("- cmd:x\n").data ≠ ([] : Str) := by
  decide

/-- C2 (amended): for every file content and bound N, trim leaves the
bytes unchanged when the entry count is at most N; and for every positive
N smaller than the entry count, trim rewrites the content to exactly the
last N entry bodies in original order, each reconstructed by prefixing the
marker — the output is a suffix of the original content. -/
theorem c2_trim_amended (content : Str) (N : Nat) :
    (countEntries content ≤ N → trimModel N content = content) ∧
    (1 ≤ N → N < countEntries content →
      trimModel N content =
        (((entriesOf content).drop (countEntries content - N)).map
          (fun e => marker ++ e)).flatten ∧
      ((entriesOf content).drop (countEntries content - N)).length = N ∧
      ∃ pre, content = pre ++ trimModel N content) := by
  constructor
  · intro h
    exact trim_nop (Or.inr h)
  · intro h1 h2
    have htm : trimModel N content = rebuildLast N content := by
      rw [trimModel, if_neg (by omega), if_neg (by omega)]
    refine ⟨by rw [htm]; rfl, ?_, ?_⟩
    · rw [List.length_drop]
      have hce : countEntries content = (entriesOf content).length := rfl
      omega
    · obtain ⟨p0, es, hsp⟩ : ∃ p0 es, splitMarker content = p0 :: es := by
        cases hx : splitMarker content with
        | nil => exact absurd hx (splitGo_ne_nil _ _)
        | cons a b => exact ⟨a, b, rfl⟩
      have hjoin : content = p0 ++ (es.map (fun e => marker ++ e)).flatten := by
        have h0 := splitGo_join content []
        rw [show splitGo content [] = splitMarker content from rfl, hsp] at h0
        rw [joinPieces] at h0
        simpa using h0.symm
      have hes : entriesOf content = es := by
        rw [entriesOf, hsp]
        rfl
      refine ⟨p0 ++ ((es.take (countEntries content - N)).map
        (fun e => marker ++ e)).flatten, ?_⟩
      have hsplit2 : (es.map (fun e => marker ++ e)).flatten =
          ((es.take (countEntries content - N)).map
            (fun e => marker ++ e)).flatten ++
          ((es.drop (countEntries content - N)).map
            (fun e => marker ++ e)).flatten := by
        conv_lhs => rw [← List.take_append_drop (countEntries content - N) es]
        rw [List.map_append, List.flatten_append]
      rw [htm, rebuildLast, hes]
      conv_lhs => rw [hjoin, hsplit2]
      rw [List.append_assoc]
      rw [show countEntries content = es.length from by rw [countEntries, hes]]

/-- C2 witness: trim keeps a one-entry file within the bound unchanged and
rewrites a three-entry file at bound 2 to the last two entries. -/
theorem c2_trim_witness :
    (countEntries ("- cmd:a\n  when:1\n").data ≤ 2 ∧
      trimModel 2 ("- cmd:a\n  when:1\n").data = ("- cmd:a\n  when:1\n").data) ∧
    (trimModel 2 ("- cmd:a\n- cmd:b\n- cmd:c\n").data =
        (((entriesOf ("- cmd:a\n- cmd:b\n- cmd:c\n").data).drop
            (countEntries ("- cmd:a\n- cmd:b\n- cmd:c\n").data - 2)).map
          (fun e => marker ++ e)).flatten ∧
      ((entriesOf ("- cmd:a\n- cmd:b\n- cmd:c\n").data).drop
          (countEntries ("- cmd:a\n- cmd:b\n- cmd:c\n").data - 2)).length = 2 ∧
      ∃ pre, ("- cmd:a\n- cmd:b\n- cmd:c\n").data =
        pre ++ trimModel 2 ("- cmd:a\n- cmd:b\n- cmd:c\n").data) :=
  ⟨⟨by decide, (c2_trim_amended ("- cmd:a\n  when:1\n").data 2).1 (by decide)⟩,
    (c2_trim_amended ("- cmd:a\n- cmd:b\n- cmd:c\n").data 2).2 (by decide)
      (by decide)⟩

/-- C10: beyond identifier deduplication, the client sync_entry also skips
appending — returning success with the file unchanged — whenever the
shadow log already contains an entry (metadata line or not, e.g. a
shell-native two-line entry) whose command text and timestamp both equal
the record's; stated here for a trimmed, newline-free command planted at a
line boundary anywhere in the log. -/
theorem c10_cmd_ts_skip (bound : Nat) (r : SyncRecord) (d : Bool)
    (A B : Str)
    (hA : A = [] ∨ A.getLast? = some '\n')
    (hnl : '\n' ∉ r.cmd) (hcr : '\x0d' ∉ r.cmd)
    (hcS : trimStart r.cmd = r.cmd) (hcE : trimEnd r.cmd = r.cmd) :
    syncEntryClient true true bound r
        ⟨d, some (A ++ shellEntry r.cmd r.ts ++ B)⟩ =
      ⟨true, some (A ++ shellEntry r.cmd r.ts ++ B)⟩ := by
  have hshape : A ++ shellEntry r.cmd r.ts ++ B = A ++ ((marker ++ r.cmd) ++ '\n' ::
      ((whenPre ++ intStr r.ts) ++ '\n' :: B)) := by
    rw [shellEntry]
    simp
  have hnl1 : '\n' ∉ marker ++ r.cmd := by
    intro hm
    rcases List.mem_append.mp hm with hm1 | hm1
    · simp [marker] at hm1
    · exact hnl hm1
  have hcr1 : '\x0d' ∉ marker ++ r.cmd := by
    intro hm
    rcases List.mem_append.mp hm with hm1 | hm1
    · simp [marker] at hm1
    · exact hcr hm1
  have hex : entryExists (A ++ shellEntry r.cmd r.ts ++ B) r.cmd r.ts = true := by
    rw [entryExists, hshape]
    obtain ⟨LA, hLA⟩ := linesOf_append_pre hA ((marker ++ r.cmd) ++ '\n' ::
      ((whenPre ++ intStr r.ts) ++ '\n' :: B))
    rw [hLA]
    rw [linesOf_chunk hnl1, linesOf_chunk (no_nl_line2 r.ts)]
    rw [stripCr_no_cr hcr1, stripCr_no_cr (no_cr_line2 r.ts)]
    exact entryExistsGo_append_true r.cmd (intStr r.ts) LA _
      (entryMatchLine_shell r.cmd r.ts hcS hcE _)
  rw [syncEntryClient, if_neg (by simp), if_neg (by simp)]
  rw [if_pos (by
    show clientSkip r (Fs.file ⟨d, some (A ++ shellEntry r.cmd r.ts ++ B)⟩) = true
    rw [show Fs.file ⟨d, some (A ++ shellEntry r.cmd r.ts ++ B)⟩ =
      some (A ++ shellEntry r.cmd r.ts ++ B) from rfl]
    rw [clientSkip, hex]
    simp)]

/-- C10 witness: a record matching a shell-native entry embedded between
two other entries is skipped. -/
theorem c10_cmd_ts_skip_witness :
    (("- cmd:old\n  when:1\n").data.getLast? = some '\n') ∧
    syncEntryClient true true 5 ⟨"zz".data, "git st".data, 7⟩
        ⟨false, some (("- cmd:old\n  when:1\n").data ++
          shellEntry "git st".data 7 ++ ("- cmd:new\n  when:9\n").data)⟩ =
      ⟨true, some (("- cmd:old\n  when:1\n").data ++
        shellEntry "git st".data 7 ++ ("- cmd:new\n  when:9\n").data)⟩ :=
  ⟨by decide, c10_cmd_ts_skip 5 ⟨"zz".data, "git st".data, 7⟩ false
    ("- cmd:old\n  when:1\n").data ("- cmd:new\n  when:9\n").data
    (Or.inr (by decide)) (by decide) (by decide) (by decide) (by decide)⟩

theorem syncAllClient_unfold (b : Nat) (store : List SyncRecord) (fs : Fs) :
    syncAllClient true true b store fs =
      (((listModel (some b) store).filter
          (fun e => ¬ e.id ∈ uuidsOf (fs.file.getD []))).length,
       ((listModel (some b) store).filter
          (fun e => ¬ e.id ∈ uuidsOf (fs.file.getD []))).foldl
        (fun acc r => syncEntryClient true true b r acc) fs) := by
  rw [syncAllClient, if_neg (by simp), if_neg (by simp)]

/-- C8 (counterexample): two primary-store records with distinct
identifiers but the same command and timestamp; the first reconcile
appends one of them and skips the other through the command+timestamp
check (leaving its identifier unrecorded), so the second reconcile still
sees it as new and returns 1, not 0 — even though it again appends
nothing (the shadow log is unchanged). -/
theorem c8_reconcile_counterexample :
    (syncAllClient true true 10 [⟨"a".data, "x".data, 1⟩, ⟨"b".data, "x".data, 1⟩]
        (syncAllClient true true 10
          [⟨"a".data, "x".data, 1⟩, ⟨"b".data, "x".data, 1⟩] ⟨true, none⟩).2).1 = 1 ∧
    (syncAllClient true true 10 [⟨"a".data, "x".data, 1⟩, ⟨"b".data, "x".data, 1⟩]
        (syncAllClient true true 10
          [⟨"a".data, "x".data, 1⟩, ⟨"b".data, "x".data, 1⟩] ⟨true, none⟩).2).2 =
      (syncAllClient true true 10
        [⟨"a".data, "x".data, 1⟩, ⟨"b".data, "x".data, 1⟩] ⟨true, none⟩).2 := by
  decide

/-- C8 (amended): starting from a missing (empty) shadow log, for a
primary store of pairwise distinct records — distinct identifiers and no
record's encoded entry matching another under the command+timestamp scan —
with well-formed identifiers and marker-free encoded bodies, a second
reconcile with no new primary-store records appends zero records, leaves
the shadow log unchanged, and returns 0. -/
theorem c8_reconcile_amended (bound : Nat) (store : List SyncRecord) (d : Bool)
    (hWF : ∀ x ∈ store, WFrec x)
    (hnm : ∀ x ∈ store, noMark (entryBody x) = true)
    (hP : store.Pairwise Rdistinct) :
    (syncAllClient true true bound store
        (syncAllClient true true bound store ⟨d, none⟩).2).1 = 0 ∧
    (syncAllClient true true bound store
        (syncAllClient true true bound store ⟨d, none⟩).2).2 =
      (syncAllClient true true bound store ⟨d, none⟩).2 := by
  have hWFt : ∀ x ∈ store.take bound, WFrec x :=
    fun x hx => hWF x (List.mem_of_mem_take hx)
  have hnmt : ∀ x ∈ store.take bound, noMark (entryBody x) = true :=
    fun x hx => hnm x (List.mem_of_mem_take hx)
  have hPt : (store.take bound).Pairwise Rdistinct :=
    hP.sublist (List.take_sublist bound store)
  have hnew1 : (listModel (some bound) store).filter
      (fun e => ¬ e.id ∈ uuidsOf ((⟨d, none⟩ : Fs).file.getD [])) =
      store.take bound := by
    apply List.filter_eq_self.mpr
    intro x hx
    have h0 : uuidsOf ([] : Str) = [] := rfl
    simp [h0]
  have hcall1 := syncAllClient_unfold bound store ⟨d, none⟩
  rw [hnew1] at hcall1
  rcases htk : store.take bound with _ | ⟨x, rest⟩
  · rw [htk] at hcall1
    have hfs1 : (syncAllClient true true bound store ⟨d, none⟩).2 =
        (⟨d, none⟩ : Fs) := by
      rw [hcall1]
      rfl
    rw [hfs1]
    have hcall2 := syncAllClient_unfold bound store ⟨d, none⟩
    
    rw [hnew1, htk] at hcall2
    rw [hcall2]
    exact ⟨rfl, rfl⟩
  · rw [htk] at hcall1
    have hb1 : bound = 0 ∨ 1 ≤ bound := by
      rcases Nat.eq_zero_or_pos bound with h | h
      · exact Or.inl h
      · exact Or.inr h
    have hWxr : ∀ y ∈ x :: rest, WFrec y := htk ▸ hWFt
    have hnmxr : ∀ y ∈ x :: rest, noMark (entryBody y) = true := htk ▸ hnmt
    have hPxr : (x :: rest).Pairwise Rdistinct := htk ▸ hPt
    have hlenxr : (x :: rest).length ≤ bound := by
      rw [← htk]
      simp [List.length_take]
    have hfoldc : (x :: rest).foldl
        (fun acc r => syncEntryClient true true bound r acc) ⟨d, none⟩ =
        ⟨true, some (joinEnc (x :: rest))⟩ := by
      rw [List.foldl_cons,
        syncEntryClient_fresh bound x d (hnmxr x (by simp)) hb1]
      have hfold2 := syncAll_fold bound rest [x]
        (by
          intro y hy
          exact hWxr y (by simpa using hy))
        (by
          intro y hy
          exact hnmxr y (by simpa using hy))
        (by simpa using hPxr)
        (Or.inr (by simpa using hlenxr))
      rw [hfold2]
      rfl
    have hfs1 : (syncAllClient true true bound store ⟨d, none⟩).2 =
        ⟨true, some (joinEnc (x :: rest))⟩ := by
      rw [hcall1]
      exact hfoldc
    rw [hfs1]
    have huu : uuidsOf ((⟨true, some (joinEnc (x :: rest))⟩ : Fs).file.getD []) =
        (x :: rest).map (fun r => r.id) := by
      rw [show ((⟨true, some (joinEnc (x :: rest))⟩ : Fs).file.getD [] : Str) =
        joinEnc (x :: rest) from rfl]
      exact uuidsOf_joinEnc _ hWxr
    have hnew2 : (listModel (some bound) store).filter
        (fun e => ¬ e.id ∈ uuidsOf ((⟨true, some (joinEnc (x :: rest))⟩ :
          Fs).file.getD [])) = [] := by
      rw [huu]
      apply List.filter_eq_nil.mpr
      intro y hy
      have hyin : y ∈ x :: rest := by
        rw [← htk]
        exact hy
      simp only [decide_not, Bool.not_eq_true', decide_eq_false_iff_not,
        Decidable.not_not]
      exact List.mem_map.mpr ⟨y, hyin, rfl⟩
    have hcall2 := syncAllClient_unfold bound store
      ⟨true, some (joinEnc (x :: rest))⟩
    rw [hnew2] at hcall2
    rw [hcall2]
    exact ⟨rfl, rfl⟩

/-- C8 witness: two distinct records reconcile once from an empty log;
the second reconcile returns 0 and leaves the log unchanged. -/
theorem c8_reconcile_witness :
    ((∀ x ∈ ([⟨"a".data, "x".data, 1⟩, ⟨"b".data, "y".data, 2⟩] :
        List SyncRecord), WFrec x) ∧
      (∀ x ∈ ([⟨"a".data, "x".data, 1⟩, ⟨"b".data, "y".data, 2⟩] :
        List SyncRecord), noMark (entryBody x) = true) ∧
      ([⟨"a".data, "x".data, 1⟩, ⟨"b".data, "y".data, 2⟩] :
        List SyncRecord).Pairwise Rdistinct) ∧
    ((syncAllClient true true 10 [⟨"a".data, "x".data, 1⟩, ⟨"b".data, "y".data, 2⟩]
        (syncAllClient true true 10
          [⟨"a".data, "x".data, 1⟩, ⟨"b".data, "y".data, 2⟩] ⟨true, none⟩).2).1 = 0 ∧
    (syncAllClient true true 10 [⟨"a".data, "x".data, 1⟩, ⟨"b".data, "y".data, 2⟩]
        (syncAllClient true true 10
          [⟨"a".data, "x".data, 1⟩, ⟨"b".data, "y".data, 2⟩] ⟨true, none⟩).2).2 =
      (syncAllClient true true 10
        [⟨"a".data, "x".data, 1⟩, ⟨"b".data, "y".data, 2⟩] ⟨true, none⟩).2) :=
  ⟨⟨by decide, by decide, by decide⟩,
    c8_reconcile_amended 10 [⟨"a".data, "x".data, 1⟩, ⟨"b".data, "y".data, 2⟩]
      true (by decide) (by decide) (by decide)⟩

/-- C1 (amended): for calls on records with pairwise distinct
well-formed identifiers whose encoded entries cannot shadow one another
under the command+timestamp existence check, and a retention bound that is
0 (no limit) or at least the number of calls with marker-free encoded
bodies, every complete concurrent execution of the client sync_entry calls
from an empty shadow log ends with the file equal to the concatenation of
all N encoded entries in some order — exactly N well-formed three-line
entries, none interleaved. -/
theorem c1_concurrent_amended (rs : List SyncRecord) (bound : Nat)
    (hWF : ∀ r ∈ rs, WFrec r)
    (hP : rs.Pairwise Rdistinct)
    (hB : bound = 0 ∨
      (rs.length ≤ bound ∧ ∀ r ∈ rs, noMark (entryBody r) = true))
    (st : Str × List Phase)
    (hreach : Reach rs bound (initSt rs) st)
    (hfin : ∀ i, i < rs.length →
      ∃ p, st.2.get? i = some p ∧ isFinished p = true) :
    ∃ l : List SyncRecord, l.Perm rs ∧ st.1 = joinEnc l := by
  have hinv := inv_reach hWF hP hB hreach
  obtain ⟨hlen, hnoskip, ⟨l, hfile, hperm⟩, _⟩ := hinv
  have hdone : ∀ i, i < st.2.length → st.2.get? i = some Phase.done := by
    intro i hi
    obtain ⟨p, hp, hf⟩ := hfin i (by rw [← hlen]; exact hi)
    cases p with
    | done => exact hp
    | skipped => exact absurd hp (hnoskip i)
    | start => simp [isFinished] at hf
    | c1 => simp [isFinished] at hf
    | ready => simp [isFinished] at hf
    | appended => simp [isFinished] at hf
    | trimming s => simp [isFinished] at hf
  have hall := activeOf_all_done st.2 rs hlen hdone
  refine ⟨l, hperm.trans ?_, hfile⟩
  rw [hall]

/-- C1 (counterexample): a complete concurrent execution (here: the
sequential schedule, one admissible interleaving) of two sync_entry calls
with distinct identifiers but equal command and timestamp ends with only
one entry in the shadow log — the second call is skipped by the
command+timestamp existence check — so the claimed "exactly N entries"
fails at N = 2. -/
theorem c1_concurrent_counterexample :
    Reach [⟨"a".data, "x".data, 1⟩, ⟨"b".data, "x".data, 1⟩] 0
        (initSt [⟨"a".data, "x".data, 1⟩, ⟨"b".data, "x".data, 1⟩])
        (encode ⟨"a".data, "x".data, 1⟩, [Phase.done, Phase.skipped]) ∧
    (∀ i, i < 2 → ∃ p,
      ([Phase.done, Phase.skipped] : List Phase).get? i = some p ∧
        isFinished p = true) ∧
    countEntries (encode ⟨"a".data, "x".data, 1⟩) = 1 := by
  refine ⟨?_, ?_, by decide⟩
  · show Relation.ReflTransGen
      (CStep [⟨"a".data, "x".data, 1⟩, ⟨"b".data, "x".data, 1⟩] 0)
      ([], [Phase.start, Phase.start])
      (encode ⟨"a".data, "x".data, 1⟩, [Phase.done, Phase.skipped])
    refine Relation.ReflTransGen.head
      (CStep.uuidPass [] [Phase.start, Phase.start] 0
        ⟨"a".data, "x".data, 1⟩ rfl rfl (by decide)) ?_
    show Relation.ReflTransGen _ ([], [Phase.c1, Phase.start]) _
    refine Relation.ReflTransGen.head
      (CStep.existsPass [] [Phase.c1, Phase.start] 0
        ⟨"a".data, "x".data, 1⟩ rfl rfl (by decide)) ?_
    show Relation.ReflTransGen _ ([], [Phase.ready, Phase.start]) _
    refine Relation.ReflTransGen.head
      (CStep.appendStep [] [Phase.ready, Phase.start] 0
        ⟨"a".data, "x".data, 1⟩ rfl rfl) ?_
    show Relation.ReflTransGen _
      (encode ⟨"a".data, "x".data, 1⟩, [Phase.appended, Phase.start]) _
    refine Relation.ReflTransGen.head
      (CStep.trimRead (encode ⟨"a".data, "x".data, 1⟩)
        [Phase.appended, Phase.start] 0 rfl) ?_
    show Relation.ReflTransGen _
      (encode ⟨"a".data, "x".data, 1⟩,
        [Phase.trimming (encode ⟨"a".data, "x".data, 1⟩), Phase.start]) _
    refine Relation.ReflTransGen.head
      (CStep.trimSkip (encode ⟨"a".data, "x".data, 1⟩)
        [Phase.trimming (encode ⟨"a".data, "x".data, 1⟩), Phase.start] 0
        (encode ⟨"a".data, "x".data, 1⟩) rfl (Or.inl rfl)) ?_
    show Relation.ReflTransGen _
      (encode ⟨"a".data, "x".data, 1⟩, [Phase.done, Phase.start]) _
    refine Relation.ReflTransGen.head
      (CStep.uuidPass (encode ⟨"a".data, "x".data, 1⟩)
        [Phase.done, Phase.start] 1 ⟨"b".data, "x".data, 1⟩ rfl rfl (by decide)) ?_
    show Relation.ReflTransGen _
      (encode ⟨"a".data, "x".data, 1⟩, [Phase.done, Phase.c1]) _
    refine Relation.ReflTransGen.head
      (CStep.existsSkip (encode ⟨"a".data, "x".data, 1⟩)
        [Phase.done, Phase.c1] 1 ⟨"b".data, "x".data, 1⟩ rfl rfl (by decide)) ?_
    show Relation.ReflTransGen _
      (encode ⟨"a".data, "x".data, 1⟩, [Phase.done, Phase.skipped]) _
    exact Relation.ReflTransGen.refl
  · intro i hi
    interval_cases i
    · exact ⟨Phase.done, rfl, rfl⟩
    · exact ⟨Phase.skipped, rfl, rfl⟩

/-- C1 witness: two distinct non-shadowing records, a complete concurrent
execution, and the resulting file as the concatenation of both entries in
some order. -/
theorem c1_concurrent_witness :
    ((∀ r ∈ ([⟨"a".data, "x".data, 1⟩, ⟨"b".data, "y".data, 2⟩] : List SyncRecord), WFrec r) ∧
      ([⟨"a".data, "x".data, 1⟩, ⟨"b".data, "y".data, 2⟩] : List SyncRecord).Pairwise Rdistinct ∧
      ((0 : Nat) = 0 ∨ (([⟨"a".data, "x".data, 1⟩, ⟨"b".data, "y".data, 2⟩] : List SyncRecord).length ≤ 0 ∧
        ∀ r ∈ ([⟨"a".data, "x".data, 1⟩, ⟨"b".data, "y".data, 2⟩] : List SyncRecord), noMark (entryBody r) = true))) ∧
    ∃ l : List SyncRecord,
      l.Perm [⟨"a".data, "x".data, 1⟩, ⟨"b".data, "y".data, 2⟩] ∧
      ((encode ⟨"a".data, "x".data, 1⟩ ++ encode ⟨"b".data, "y".data, 2⟩, ([Phase.done, Phase.done] : List Phase)) :
        Str × List Phase).1 = joinEnc l :=
  ⟨⟨by decide, by decide, Or.inl rfl⟩,
    c1_concurrent_amended [⟨"a".data, "x".data, 1⟩, ⟨"b".data, "y".data, 2⟩] 0
      (by decide) (by decide) (Or.inl rfl)
      (encode ⟨"a".data, "x".data, 1⟩ ++ encode ⟨"b".data, "y".data, 2⟩, [Phase.done, Phase.done])
      (by
        show Relation.ReflTransGen
          (CStep [⟨"a".data, "x".data, 1⟩, ⟨"b".data, "y".data, 2⟩] 0)
          ([], [Phase.start, Phase.start])
          (encode ⟨"a".data, "x".data, 1⟩ ++ encode ⟨"b".data, "y".data, 2⟩, [Phase.done, Phase.done])
        refine Relation.ReflTransGen.head
          (CStep.uuidPass [] [Phase.start, Phase.start] 0
            ⟨"a".data, "x".data, 1⟩ rfl rfl (by decide)) ?_
        show Relation.ReflTransGen _ ([], [Phase.c1, Phase.start]) _
        refine Relation.ReflTransGen.head
          (CStep.existsPass [] [Phase.c1, Phase.start] 0
            ⟨"a".data, "x".data, 1⟩ rfl rfl (by decide)) ?_
        show Relation.ReflTransGen _ ([], [Phase.ready, Phase.start]) _
        refine Relation.ReflTransGen.head
          (CStep.appendStep [] [Phase.ready, Phase.start] 0
            ⟨"a".data, "x".data, 1⟩ rfl rfl) ?_
        show Relation.ReflTransGen _
          (encode ⟨"a".data, "x".data, 1⟩, [Phase.appended, Phase.start]) _
        refine Relation.ReflTransGen.head
          (CStep.trimRead (encode ⟨"a".data, "x".data, 1⟩)
            [Phase.appended, Phase.start] 0 rfl) ?_
        show Relation.ReflTransGen _
          (encode ⟨"a".data, "x".data, 1⟩,
            [Phase.trimming (encode ⟨"a".data, "x".data, 1⟩), Phase.start]) _
        refine Relation.ReflTransGen.head
          (CStep.trimSkip (encode ⟨"a".data, "x".data, 1⟩)
            [Phase.trimming (encode ⟨"a".data, "x".data, 1⟩), Phase.start] 0
            (encode ⟨"a".data, "x".data, 1⟩) rfl (Or.inl rfl)) ?_
        show Relation.ReflTransGen _
          (encode ⟨"a".data, "x".data, 1⟩, [Phase.done, Phase.start]) _
        refine Relation.ReflTransGen.head
          (CStep.uuidPass (encode ⟨"a".data, "x".data, 1⟩)
            [Phase.done, Phase.start] 1 ⟨"b".data, "y".data, 2⟩ rfl rfl (by decide)) ?_
        show Relation.ReflTransGen _
          (encode ⟨"a".data, "x".data, 1⟩, [Phase.done, Phase.c1]) _
        refine Relation.ReflTransGen.head
          (CStep.existsPass (encode ⟨"a".data, "x".data, 1⟩)
            [Phase.done, Phase.c1] 1 ⟨"b".data, "y".data, 2⟩ rfl rfl (by decide)) ?_
        show Relation.ReflTransGen _
          (encode ⟨"a".data, "x".data, 1⟩, [Phase.done, Phase.ready]) _
        refine Relation.ReflTransGen.head
          (CStep.appendStep (encode ⟨"a".data, "x".data, 1⟩)
            [Phase.done, Phase.ready] 1 ⟨"b".data, "y".data, 2⟩ rfl rfl) ?_
        show Relation.ReflTransGen _
          (encode ⟨"a".data, "x".data, 1⟩ ++ encode ⟨"b".data, "y".data, 2⟩,
            [Phase.done, Phase.appended]) _
        refine Relation.ReflTransGen.head
          (CStep.trimRead (encode ⟨"a".data, "x".data, 1⟩ ++ encode ⟨"b".data, "y".data, 2⟩)
            [Phase.done, Phase.appended] 1 rfl) ?_
        show Relation.ReflTransGen _
          (encode ⟨"a".data, "x".data, 1⟩ ++ encode ⟨"b".data, "y".data, 2⟩,
            [Phase.done, Phase.trimming (encode ⟨"a".data, "x".data, 1⟩ ++ encode ⟨"b".data, "y".data, 2⟩)]) _
        refine Relation.ReflTransGen.head
          (CStep.trimSkip (encode ⟨"a".data, "x".data, 1⟩ ++ encode ⟨"b".data, "y".data, 2⟩)
            [Phase.done, Phase.trimming (encode ⟨"a".data, "x".data, 1⟩ ++ encode ⟨"b".data, "y".data, 2⟩)] 1
            (encode ⟨"a".data, "x".data, 1⟩ ++ encode ⟨"b".data, "y".data, 2⟩) rfl (Or.inl rfl)) ?_
        show Relation.ReflTransGen _
          (encode ⟨"a".data, "x".data, 1⟩ ++ encode ⟨"b".data, "y".data, 2⟩, [Phase.done, Phase.done]) _
        exact Relation.ReflTransGen.refl)
      (by
        intro i hi
        have h2 : i < 2 := hi
        interval_cases i
        · exact ⟨Phase.done, rfl, rfl⟩
        · exact ⟨Phase.done, rfl, rfl⟩)⟩

end FishSync
